import Mathlib

/-!
# Verification of the LaunchIt trade-ingestion and candle-aggregation core

Shallow embedding of the ingestion/aggregation pipeline of the LaunchIt
repository (frontend curve-trade hook, candle builders, chunked log fetcher,
deploy-block binary search), together with theorems settling the frozen
specification claims.

Modelling conventions:
* JavaScript numbers that may be non-finite are modelled by `JsNum`
  (a rational plus `nan`/`±∞` markers); code paths that run after a
  `Number.isFinite` filter are modelled over plain rationals `ℚ`.
* Exact rational arithmetic stands in for IEEE doubles: none of the claims
  under consideration depends on rounding, only on ordering, bucketing and
  field propagation.
* A JavaScript `Map` is modelled as an insertion-ordered association list
  (`jsMapSet` overwrites in place, appends fresh keys at the end), and a
  JavaScript `Set` used for deduplication as `jsDedup` (keeps the first
  occurrence, in order).
* `Array.prototype.sort` (stable, comparator-based) is modelled by
  `List.insertionSort` with the relation `cmp a b ≤ 0`.
* Network effects are modelled by total oracle functions in an environment
  record; fallible RPC calls return `Except String` / `Option`.
-/

namespace LaunchIt

/-- A JavaScript `number`: either a finite value (modelled exactly as a
rational) or one of the non-finite values `NaN`, `Infinity`, `-Infinity`. -/
inductive JsNum where
  | num (q : ℚ)
  | nan
  | posInf
  | negInf
  deriving DecidableEq, Repr

/-- `Number.isFinite`. -/
def JsNum.isFinite : JsNum → Bool
  | .num _ => true
  | _ => false

/-- Insertion-ordered lookup: `Map.prototype.get` (`none` = `undefined`). -/
def jsMapGet {κ α : Type} [DecidableEq κ] (m : List (κ × α)) (k : κ) : Option α :=
  (m.find? (fun e => e.1 = k)).map (·.2)

/-- Insertion-ordered update: `Map.prototype.set`.  An existing key keeps its
position and gets the new value; a fresh key is appended at the end. -/
def jsMapSet {κ α : Type} [DecidableEq κ] (m : List (κ × α)) (k : κ) (v : α) :
    List (κ × α) :=
  if m.any (fun e => e.1 = k) then
    m.map (fun e => if e.1 = k then (k, v) else e)
  else
    m ++ [(k, v)]

/-- `Array.from(new Set(xs))`: deduplicate keeping first occurrences in
insertion order. -/
def jsDedup {α : Type} [DecidableEq α] (xs : List α) : List α :=
  xs.foldl (fun acc x => if x ∈ acc then acc else acc ++ [x]) []

/-! ## Normalized curve trades and `mergeTrades`
Source: `frontend/src/lib/chart/CurveTradesChart.tsx` (`useCurveTrades`). -/

/-- Trade side (the `type` field, `"buy"` / `"sell"`). -/
inductive Side where
  | buy
  | sell
  deriving DecidableEq, Repr

/-- A normalized curve trade (`CurveTrade` in the source).  Wei amounts are
integers, the derived price is an exact rational. -/
structure CurveTrade where
  side : Side
  from_ : String
  to_ : String
  tokensWei : ℤ
  nativeWei : ℤ
  pricePerToken : ℚ
  timestamp : ℤ
  txHash : String
  blockNumber : ℤ
  logIndex : Option ℤ
  deriving DecidableEq, Repr

/-- The dedup key `` `${String(t.txHash)}:${Number(t.logIndex ?? 0)}` ``.
The string encoding is injective in the pair (the numeric part contains no
colon, so the split at the last colon is unambiguous); we key by the pair
directly. -/
def keyOf (t : CurveTrade) : String × ℤ :=
  (t.txHash, t.logIndex.getD 0)

/-- The comparator `(a, b) => bnA - bnB !== 0 ? bnA - bnB : liA - liB` as the
relation "`a` sorts no later than `b`". -/
def tradeLe (a b : CurveTrade) : Prop :=
  a.blockNumber < b.blockNumber ∨
    (a.blockNumber = b.blockNumber ∧ a.logIndex.getD 0 ≤ b.logIndex.getD 0)

instance : DecidableRel tradeLe := fun a b => by
  unfold tradeLe; infer_instance

instance : IsTotal CurveTrade tradeLe where
  total a b := by
    unfold tradeLe
    rcases lt_trichotomy a.blockNumber b.blockNumber with h | h | h
    · exact Or.inl (Or.inl h)
    · rcases le_total (a.logIndex.getD 0) (b.logIndex.getD 0) with h' | h'
      · exact Or.inl (Or.inr ⟨h, h'⟩)
      · exact Or.inr (Or.inr ⟨h.symm, h'⟩)
    · exact Or.inr (Or.inl h)

instance : IsTrans CurveTrade tradeLe where
  trans a b c hab hbc := by
    unfold tradeLe at *
    rcases hab with h1 | ⟨h1, h1'⟩ <;> rcases hbc with h2 | ⟨h2, h2'⟩
    · exact Or.inl (h1.trans h2)
    · exact Or.inl (h2 ▸ h1)
    · exact Or.inl (h1 ▸ h2)
    · exact Or.inr ⟨h1.trans h2, h1'.trans h2'⟩

/-- The key → record map built by `mergeTrades`: insert all of `prev`, then
all of `next` (later insertions win on key collision). -/
def mergeMap (prev next : List CurveTrade) : List ((String × ℤ) × CurveTrade) :=
  (prev ++ next).foldl (fun m t => jsMapSet m (keyOf t) t) []

/-- `mergeTrades(prev, next)`: dedup by `(txHash, logIndex)` with `next`
winning, then sort ascending by `(blockNumber, logIndex)`. -/
def mergeTrades (prev next : List CurveTrade) : List CurveTrade :=
  ((mergeMap prev next).map (·.2)).insertionSort tradeLe

/-- The shared shape of the `mergeTrades` fold. -/
def tradeFold (ts : List CurveTrade) (m : List ((String × ℤ) × CurveTrade)) :
    List ((String × ℤ) × CurveTrade) :=
  ts.foldl (fun m t => jsMapSet m (keyOf t) t) m

/-- The last record of `ts` with key `k` (the record the key map retains). -/
def lastWith (ts : List CurveTrade) (k : String × ℤ) : Option CurveTrade :=
  (ts.filter (fun t => keyOf t = k)).getLast?


/-! ## Candle aggregation, incremental mode
Source: `frontend/src/components/token/CurvePriceChart.tsx` (second document,
`TradingViewChart`): `bucketSec`, `toCandlesAndVolume`, `applyTradeToLastBars`.
The three CSS-derived volume colors are passed as an explicit record (the
source reads them from the DOM). -/

/-- The three theme colors used for volume bars. -/
structure Colors where
  buy : String
  sell : String
  neutral : String
  deriving DecidableEq, Repr

/-- A `TvTrade` as it reaches `toCandlesAndVolume` (fields may be
non-finite). -/
structure RawTvTrade where
  timestamp : JsNum
  price : JsNum
  volume : JsNum
  side : Option Side
  deriving DecidableEq, Repr

/-- A `TvTrade` whose `timestamp`, `price` and `volume` passed the
`Number.isFinite` filter, carried at rational type. -/
structure TvTrade where
  timestamp : ℚ
  price : ℚ
  volume : ℚ
  side : Option Side
  deriving DecidableEq, Repr

/-- Inject a finite trade back into the raw representation. -/
def TvTrade.toRaw (t : TvTrade) : RawTvTrade :=
  ⟨.num t.timestamp, .num t.price, .num t.volume, t.side⟩

/-- The filter
`Number.isFinite(t?.timestamp) && Number.isFinite(t?.price) && Number.isFinite(t?.volume)`,
with survivors refined to `TvTrade`. -/
def filterTv (ts : List RawTvTrade) : List TvTrade :=
  ts.filterMap fun t =>
    match t.timestamp, t.price, t.volume with
    | .num a, .num p, .num v => some ⟨a, p, v, t.side⟩
    | _, _, _ => none

/-- An OHLC candle (`open` is a Lean keyword, hence `open_`). -/
structure Candle where
  time : ℤ
  open_ : ℚ
  high : ℚ
  low : ℚ
  close : ℚ
  deriving DecidableEq, Repr

/-- A volume histogram bar (`color` is optional in the source type). -/
structure VolumeBar where
  time : ℤ
  value : ℚ
  color : Option String
  deriving DecidableEq, Repr

/-- `bucketSec(ts, intervalSec) = Math.floor(Math.floor(ts) / intervalSec) * intervalSec`.
`Int.fdiv` is floor division, matching `Math.floor` of a quotient for the
positive bucket widths used by the chart. -/
def bucketSec (ts : ℚ) (intervalSec : ℤ) : ℤ :=
  (Int.fdiv ⌊ts⌋ intervalSec) * intervalSec

/-- `tr.side === "buy" ? buyCol : tr.side === "sell" ? sellCol : neutral`. -/
def sideColor (colors : Colors) : Option Side → String
  | some .buy => colors.buy
  | some .sell => colors.sell
  | _ => colors.neutral

/-- The comparator `(a, b) => a.timestamp - b.timestamp` as a relation. -/
def tvLe (a b : TvTrade) : Prop := a.timestamp ≤ b.timestamp

instance : DecidableRel tvLe := fun a b => by unfold tvLe; infer_instance

instance : IsTotal TvTrade tvLe := ⟨fun a b => le_total a.timestamp b.timestamp⟩

instance : IsTrans TvTrade tvLe := ⟨fun _ _ _ => le_trans⟩

/-- The comparator `(a, b) => a.time - b.time` on candles. -/
def candleLe (a b : Candle) : Prop := a.time ≤ b.time

instance : DecidableRel candleLe := fun a b => by unfold candleLe; infer_instance

instance : IsTotal Candle candleLe := ⟨fun a b => le_total a.time b.time⟩

instance : IsTrans Candle candleLe := ⟨fun _ _ _ => le_trans⟩

/-- The comparator `(a, b) => a.time - b.time` on volume bars. -/
def volLe (a b : VolumeBar) : Prop := a.time ≤ b.time

instance : DecidableRel volLe := fun a b => by unfold volLe; infer_instance

instance : IsTotal VolumeBar volLe := ⟨fun a b => le_total a.time b.time⟩

instance : IsTrans VolumeBar volLe := ⟨fun _ _ _ => le_trans⟩

/-- One iteration of the `for (const tr of sorted)` loop of
`toCandlesAndVolume`: update the candle map and the volume map at the trade's
bucket (in-place object mutation in the source = in-place map update here). -/
def tvStep (colors : Colors) (intervalSec : ℤ)
    (st : List (ℤ × Candle) × List (ℤ × VolumeBar)) (tr : TvTrade) :
    List (ℤ × Candle) × List (ℤ × VolumeBar) :=
  let t := bucketSec tr.timestamp intervalSec
  let cm := match jsMapGet st.1 t with
    | none => jsMapSet st.1 t ⟨t, tr.price, tr.price, tr.price, tr.price⟩
    | some c => jsMapSet st.1 t
        { c with high := max c.high tr.price, low := min c.low tr.price,
                 close := tr.price }
  let vm := match jsMapGet st.2 t with
    | none => jsMapSet st.2 t ⟨t, tr.volume, some (sideColor colors tr.side)⟩
    | some v => jsMapSet st.2 t { v with value := v.value + tr.volume }
  (cm, vm)

/-- The aggregation core of `toCandlesAndVolume` applied to the sorted,
filtered trade list. -/
def tvCore (colors : Colors) (sorted : List TvTrade) (intervalSec : ℤ) :
    List Candle × List VolumeBar :=
  let st := sorted.foldl (tvStep colors intervalSec) ([], [])
  ((st.1.map (·.2)).insertionSort candleLe, (st.2.map (·.2)).insertionSort volLe)

/-- `toCandlesAndVolume(trades, intervalSec)`: filter to finite trades, stable
sort by timestamp, aggregate into per-bucket maps, output the map values
sorted by bucket time. -/
def toCandlesAndVolume (colors : Colors) (trades : List RawTvTrade)
    (intervalSec : ℤ) : List Candle × List VolumeBar :=
  if trades.isEmpty then ([], []) else
  tvCore colors ((filterTv trades).insertionSort tvLe) intervalSec

/-- `applyTradeToLastBars(trade, intervalSec, lastCandle, lastVol, colors)`:
start a new bar when the trade's bucket differs from the last bar's (or no
last bar exists), else fold the trade into the last bar. -/
def applyTradeToLastBars (trade : TvTrade) (intervalSec : ℤ)
    (lastCandle : Option Candle) (lastVol : Option VolumeBar)
    (colors : Colors) : Candle × VolumeBar :=
  let t := bucketSec trade.timestamp intervalSec
  let color := sideColor colors trade.side
  match lastCandle with
  | none =>
      (⟨t, trade.price, trade.price, trade.price, trade.price⟩,
       ⟨t, trade.volume, some color⟩)
  | some c =>
      if c.time ≠ t then
        (⟨t, trade.price, trade.price, trade.price, trade.price⟩,
         ⟨t, trade.volume, some color⟩)
      else
        ({ c with high := max c.high trade.price, low := min c.low trade.price,
                  close := trade.price },
         ⟨t, (lastVol.map (·.value)).getD 0 + trade.volume,
          some ((lastVol.bind (·.color)).getD color)⟩)

/-- The candle/volume map state after folding a trade list (the loop state of
`toCandlesAndVolume`). -/
def tvFold (colors : Colors) (intervalSec : ℤ) (ts : List TvTrade) :
    List (ℤ × Candle) × List (ℤ × VolumeBar) :=
  ts.foldl (tvStep colors intervalSec) ([], [])

/-- Repeatedly feed trades through `applyTradeToLastBars`, tracking the last
candle and last volume bar (the realtime-update loop of the chart). -/
def applySeq (colors : Colors) (intervalSec : ℤ)
    (init : Option Candle × Option VolumeBar) (trs : List TvTrade) :
    Option Candle × Option VolumeBar :=
  trs.foldl (fun st tr =>
    let r := applyTradeToLastBars tr intervalSec st.1 st.2 colors
    (some r.1, some r.2)) init

/-! ## Candle aggregation, full-rebuild mode
Source: `frontend/src/lib/chart/buildCandles.ts`, two variants concatenated
after `readProvider.ts`.  The first variant gap-fills between the first and
last trade bucket; the second emits only buckets that contain trades. -/

/-- A `ChartPoint` of the first `buildCandles` variant. -/
structure ChartPoint1 where
  timestamp : JsNum
  value : JsNum
  deriving DecidableEq, Repr

/-- A finite chart point of the first variant. -/
structure QChartPoint1 where
  timestamp : ℚ
  value : ℚ
  deriving DecidableEq, Repr

/-- The filter `Number.isFinite(p.timestamp) && Number.isFinite(p.value)`. -/
def chartFilter1 (ps : List ChartPoint1) : List QChartPoint1 :=
  ps.filterMap fun p =>
    match p.timestamp, p.value with
    | .num t, .num v => some ⟨t, v⟩
    | _, _ => none

/-- The comparator `(a, b) => a.timestamp - b.timestamp` on finite points. -/
def p1Le (a b : QChartPoint1) : Prop := a.timestamp ≤ b.timestamp

instance : DecidableRel p1Le := fun a b => by unfold p1Le; infer_instance

instance : IsTotal QChartPoint1 p1Le := ⟨fun a b => le_total a.timestamp b.timestamp⟩

instance : IsTrans QChartPoint1 p1Le := ⟨fun _ _ _ => le_trans⟩

/-- `bucketOf(t) = Math.floor(t / intervalSec) * intervalSec` (exact rational
division then floor; matches JS for every non-zero width). -/
def bucketOf (t : ℚ) (intervalSec : ℤ) : ℤ :=
  ⌊t / (intervalSec : ℚ)⌋ * intervalSec

/-- The per-bucket OHLC record stored in the first variant's map. -/
structure OHLC where
  open_ : ℚ
  high : ℚ
  low : ℚ
  close : ℚ
  deriving DecidableEq, Repr

/-- One iteration of the aggregation loop of the first variant. -/
def ohlcStep (intervalSec : ℤ) (m : List (ℤ × OHLC)) (p : QChartPoint1) :
    List (ℤ × OHLC) :=
  let b := bucketOf p.timestamp intervalSec
  match jsMapGet m b with
  | none => jsMapSet m b ⟨p.value, p.value, p.value, p.value⟩
  | some ex => jsMapSet m b
      ⟨ex.open_, max ex.high p.value, min ex.low p.value, p.value⟩

/-- The bucket sequence `firstBucket, firstBucket + i, …` up to `lastB` of the
emission loop `for (let t = firstBucket; t <= lastBucket; t += intervalSec)`.
The loop never terminates in JS for a non-positive width, so a non-positive
width is mapped to the empty range (all claims assume a positive width). -/
def bucketRange (t lastB intervalSec : ℤ) : List ℤ :=
  if _h : 0 < intervalSec then
    if t ≤ lastB then t :: bucketRange (t + intervalSec) lastB intervalSec
    else []
  else []
  termination_by (lastB + 1 - t).toNat
  decreasing_by omega

/-- The emission loop of the first variant: one row per bucket in the range,
filling bucket gaps with a flat candle at the previous close. -/
def fillCandles (m : List (ℤ × OHLC)) (range : List ℤ) (prevClose0 : ℚ) :
    List Candle :=
  (range.foldl (fun (acc : List Candle × ℚ) t =>
    match jsMapGet m t with
    | some b => (acc.1 ++ [⟨t, b.open_, b.high, b.low, b.close⟩], b.close)
    | none => (acc.1 ++ [⟨t, acc.2, acc.2, acc.2, acc.2⟩], acc.2))
    ([], prevClose0)).1

/-- The emission core of the first `buildCandles` variant applied to the
sorted, filtered point list. -/
def bc1Core (sorted : List QChartPoint1) (intervalSec : ℤ)
    (extendToNow : Bool) (nowSec : ℤ) : List Candle :=
  match sorted with
  | [] => []
  | p :: rest =>
    let m := (p :: rest).foldl (ohlcStep intervalSec) []
    let firstBucket := bucketOf p.timestamp intervalSec
    let lastTradeBucket := bucketOf (rest.getLastD p).timestamp intervalSec
    let lastBucket := if extendToNow
      then max lastTradeBucket (bucketOf (nowSec : ℚ) intervalSec)
      else lastTradeBucket
    let prevClose0 := match jsMapGet m firstBucket with
      | some b => b.close
      | none => p.value
    fillCandles m (bucketRange firstBucket lastBucket intervalSec) prevClose0

/-- The first `buildCandles` variant (gap-filling; `opts.extendToNow` and
`opts.nowSec` passed explicitly). -/
def buildCandles1 (points : List ChartPoint1) (intervalSec : ℤ)
    (extendToNow : Bool) (nowSec : ℤ) : List Candle :=
  if points.isEmpty then [] else
  bc1Core ((chartFilter1 points).insertionSort p1Le) intervalSec extendToNow nowSec

/-- A `ChartPoint` of the second `buildCandles` variant (optional volume;
volume is not finiteness-checked by the source filter, the in-repo callers
only pass finite volumes, modelled as `Option ℚ`). -/
structure ChartPoint2 where
  timestamp : JsNum
  value : JsNum
  volume : Option ℚ
  deriving DecidableEq, Repr

/-- A finite chart point of the second variant. -/
structure QChartPoint2 where
  timestamp : ℚ
  value : ℚ
  volume : Option ℚ
  deriving DecidableEq, Repr

/-- The filter `Number.isFinite(p.timestamp) && Number.isFinite(p.value)`. -/
def chartFilter2 (ps : List ChartPoint2) : List QChartPoint2 :=
  ps.filterMap fun p =>
    match p.timestamp, p.value with
    | .num t, .num v => some ⟨t, v, p.volume⟩
    | _, _ => none

/-- The comparator `(a, b) => a.timestamp - b.timestamp` on finite points. -/
def p2Le (a b : QChartPoint2) : Prop := a.timestamp ≤ b.timestamp

instance : DecidableRel p2Le := fun a b => by unfold p2Le; infer_instance

instance : IsTotal QChartPoint2 p2Le := ⟨fun a b => le_total a.timestamp b.timestamp⟩

instance : IsTrans QChartPoint2 p2Le := ⟨fun _ _ _ => le_trans⟩

/-- A volume bar of the second variant (no color field). -/
structure VolumeBar2 where
  time : ℤ
  value : ℚ
  deriving DecidableEq, Repr

/-- The running state of the second variant's aggregation loop. -/
structure AggSt2 where
  bucketStart : ℤ
  open_ : ℚ
  high : ℚ
  low : ℚ
  close : ℚ
  vol : ℚ
  candles : List Candle
  volumes : List VolumeBar2
  deriving DecidableEq, Repr

/-- One iteration (`for (let i = 1; …)`) of the second variant: on a bucket
change, flush the current candle/volume and restart from the point. -/
def bc2Step (intervalSec : ℤ) (st : AggSt2) (p : QChartPoint2) : AggSt2 :=
  let b := bucketOf p.timestamp intervalSec
  if b ≠ st.bucketStart then
    { bucketStart := b, open_ := p.value, high := p.value, low := p.value,
      close := p.value, vol := p.volume.getD 0,
      candles := st.candles ++ [⟨st.bucketStart, st.open_, st.high, st.low, st.close⟩],
      volumes := st.volumes ++ [⟨st.bucketStart, st.vol⟩] }
  else
    { st with high := max st.high p.value, low := min st.low p.value,
              close := p.value, vol := st.vol + p.volume.getD 0 }

/-- The aggregation core of the second `buildCandles` variant applied to the
sorted, filtered point list. -/
def bc2Core (sorted : List QChartPoint2) (intervalSec : ℤ) :
    List Candle × List VolumeBar2 :=
  match sorted with
  | [] => ([], [])
  | p :: rest =>
    let st0 : AggSt2 :=
      { bucketStart := bucketOf p.timestamp intervalSec, open_ := p.value,
        high := p.value, low := p.value, close := p.value,
        vol := p.volume.getD 0, candles := [], volumes := [] }
    let st := rest.foldl (bc2Step intervalSec) st0
    (st.candles ++ [⟨st.bucketStart, st.open_, st.high, st.low, st.close⟩],
     st.volumes ++ [⟨st.bucketStart, st.vol⟩])

/-- The second `buildCandles` variant (no gap-filling). -/
def buildCandles2 (points : List ChartPoint2) (intervalSec : ℤ) :
    List Candle × List VolumeBar2 :=
  if points.isEmpty then ([], []) else
  bc2Core ((chartFilter2 points).insertionSort p2Le) intervalSec

/-! ## Chunked log fetching
Source: `getLogsChunked` / `LOG_CHUNK_SIZE` in
`frontend/src/lib/chart/CurveTradesChart.tsx`.  The underlying
`provider.getLogs` is an oracle indexed by sub-range and attempt number. -/

/-- `const LOG_CHUNK_SIZE = 500`. -/
def LOG_CHUNK_SIZE : ℤ := 500

/-- The chunk start values taken by
`for (let start = fromBlock; start <= toBlock; start += LOG_CHUNK_SIZE)`. -/
def chunkStarts (fromBlock toBlock : ℤ) : List ℤ :=
  if fromBlock ≤ toBlock then
    fromBlock :: chunkStarts (fromBlock + LOG_CHUNK_SIZE) toBlock
  else []
  termination_by (toBlock + 1 - fromBlock).toNat
  decreasing_by unfold LOG_CHUNK_SIZE; omega

/-- `const end = Math.min(toBlock, start + LOG_CHUNK_SIZE - 1)`. -/
def subRangeEnd (toBlock s : ℤ) : ℤ := min toBlock (s + LOG_CHUNK_SIZE - 1)

/-- The 3-attempt retry loop around one sub-range query: first success wins,
otherwise the error of the last attempt is raised (`lastErr`).  The linearly
increasing backoff sleeps have no observable effect in this model. -/
def attemptLoop {α : Type} (f : ℕ → Except String α) : Except String α :=
  match f 0 with
  | .ok a => .ok a
  | .error _ =>
    match f 1 with
    | .ok a => .ok a
    | .error _ => f 2

/-- `getLogsChunked(provider, params, fromBlock, toBlock)`: query each
sub-range with retry, concatenating results in range order; a sub-range that
exhausts its retries aborts the whole call with its error. -/
def getLogsChunked {Log : Type} (g : ℤ → ℤ → ℕ → Except String (List Log))
    (fromBlock toBlock : ℤ) : Except String (List Log) :=
  (chunkStarts fromBlock toBlock).foldlM
    (fun logs s =>
      match attemptLoop (fun attempt => g s (subRangeEnd toBlock s) attempt) with
      | .ok chunk => Except.ok (logs ++ chunk)
      | .error e => Except.error e)
    []

/-- `getLogsChunked` instrumented with the trace of issued sub-range requests
`(start, end)`: once a sub-range fails, no further request is issued. -/
def getLogsChunkedT {Log : Type} (g : ℤ → ℤ → ℕ → Except String (List Log))
    (fromBlock toBlock : ℤ) :
    List (ℤ × ℤ) × Except String (List Log) :=
  (chunkStarts fromBlock toBlock).foldl
    (fun (acc : List (ℤ × ℤ) × Except String (List Log)) s =>
      match acc.2 with
      | .error _ => acc
      | .ok logs =>
        let e := subRangeEnd toBlock s
        match attemptLoop (fun attempt => g s e attempt) with
        | .ok chunk => (acc.1 ++ [(s, e)], .ok (logs ++ chunk))
        | .error err => (acc.1 ++ [(s, e)], .error err))
    ([], .ok [])

/-! ## Deploy-block resolution
Source: `findContractDeployBlock` in
`frontend/src/lib/chart/CurveTradesChart.tsx`.  `getCode` is the oracle
"contract code exists at this block" (`getCode(address, b) !== "0x"`). -/

/-- `Math.floor((lo + hi) / 2)`; `Int` division by the positive literal `2`
is floor division. -/
def deployMid (lo hi : ℤ) : ℤ := (lo + hi) / 2

/-- The `while (lo <= hi)` binary-search loop, returning
`Math.max(0, found - 5)` on exit. -/
def deployLoop (getCode : ℤ → Bool) (lo hi found : ℤ) : ℤ :=
  if lo ≤ hi then
    let mid := deployMid lo hi
    if getCode mid then deployLoop getCode lo (mid - 1) mid
    else deployLoop getCode (mid + 1) hi found
  else max 0 (found - 5)
  termination_by (hi + 1 - lo).toNat
  decreasing_by
    · unfold deployMid at *; omega
    · unfold deployMid at *; omega

/-- `findContractDeployBlock(provider, address, latest)`: fast-path fallback
`max(0, latest - 12_000)` when no code exists at `latest`, else binary search
for the first block with code, minus a 5-block safety margin. -/
def findContractDeployBlock (getCode : ℤ → Bool) (latest : ℤ) : ℤ :=
  if !(getCode latest) then max 0 (latest - 12000)
  else deployLoop getCode 0 latest latest

/-! ## The `useCurveTrades` refresh cycle
Source: `useCurveTrades` in `frontend/src/lib/chart/CurveTradesChart.tsx`.
`cursorRef`/`localStorage` cursor (kept in sync by the source) are modelled
as one persisted `cursor` field; likewise for the deploy block. -/

/-- Decoded event payload (`parsed.args`): buyer/seller wallet, token amount
and native amount in wei. -/
structure LogArgs where
  wallet : String
  tokensWei : ℤ
  nativeWei : ℤ
  deriving DecidableEq, Repr

/-- A raw log record; `args = none` models `iface.parseLog` throwing (the
record is dropped). -/
structure RawLog where
  txHash : String
  blockNumber : ℤ
  logIndex : Option ℤ
  args : Option LogArgs
  deriving DecidableEq, Repr

/-- `Number(ethers.formatUnits(wei, 18))`, modelled exactly. -/
def weiToUnits (wei : ℤ) : ℚ := (wei : ℚ) / 10 ^ 18

/-- Normalize one raw log into a `CurveTrade`
(`pricePerToken = native / Math.max(1e-18, tokens)`, `timestamp` starts 0). -/
def parseTrade (side : Side) (campaignAddress : String) (log : RawLog) :
    Option CurveTrade :=
  log.args.map fun a =>
    { side := side
      from_ := a.wallet.toLower
      to_ := campaignAddress.toLower
      tokensWei := a.tokensWei
      nativeWei := a.nativeWei
      pricePerToken := weiToUnits a.nativeWei /
        max (1 / 10 ^ 18 : ℚ) (weiToUnits a.tokensWei)
      timestamp := 0
      txHash := log.txHash
      blockNumber := log.blockNumber
      logIndex := some (log.logIndex.getD 0) }

/-- The chain RPC surface used by one refresh cycle, as total oracles.
`getLogs` is indexed by event topic (side), sub-range and attempt number;
`getBlock` returns the block timestamp or `none` on failure/null. -/
structure ChainEnv where
  address : String
  latest : ℤ
  getCode : ℤ → Bool
  getLogs : Side → ℤ → ℤ → ℕ → Except String (List RawLog)
  getBlock : ℤ → Option ℤ

/-- The hook's observable state: published points, loading/error flags, and
the persisted cursor and deploy block. -/
structure HookState where
  points : List CurveTrade
  loading : Bool
  error : Option String
  cursor : Option ℤ
  deploy : Option ℤ

/-- Deploy-block resolution step of the cycle: trust a cached value in
`[0, latest]`, else run `findContractDeployBlock`. -/
def resolveDeploy (env : ChainEnv) (st : HookState) : ℤ :=
  match st.deploy with
  | some d =>
      if 0 ≤ d ∧ d ≤ env.latest then d
      else findContractDeployBlock env.getCode env.latest
  | none => findContractDeployBlock env.getCode env.latest

/-- The scan range of a cycle: from the deploy block, or from
`max(startBlock, cursor - overlap)` when a valid cursor exists, up to the
latest block. -/
def scanRange (env : ChainEnv) (st : HookState) : ℤ × ℤ :=
  let startBlock := resolveDeploy env st
  let overlap : ℤ := 10
  let cursor := st.cursor.bind fun c =>
    if 0 < c ∧ c ≤ env.latest then some c else none
  (match cursor with
   | none => startBlock
   | some c => max startBlock (c - overlap), env.latest)

/-- Fetch buy and sell logs chunked, parse them, and sort the combined list
by `(blockNumber, logIndex)`. -/
def fetchCombined (env : ChainEnv) (fromBlock toBlock : ℤ) :
    Except String (List CurveTrade) := do
  let buyLogs ← getLogsChunked (env.getLogs .buy) fromBlock toBlock
  let sellLogs ← getLogsChunked (env.getLogs .sell) fromBlock toBlock
  let parsedBuys := buyLogs.filterMap (parseTrade .buy env.address)
  let parsedSells := sellLogs.filterMap (parseTrade .sell env.address)
  pure ((parsedBuys ++ parsedSells).insertionSort tradeLe)

/-- The `blockTs` map: query each block once; a failed lookup or a falsy
(zero) timestamp leaves the block unmapped. -/
def buildBlockTs (getBlock : ℤ → Option ℤ) (uniqueBlocks : List ℤ) :
    List (ℤ × ℤ) :=
  uniqueBlocks.foldl (fun m bn =>
    match getBlock bn with
    | some ts => if ts ≠ 0 then jsMapSet m bn ts else m
    | none => m) []

/-- Timestamp resolution over the combined trades: deduplicate block numbers,
look each up once, and stamp every trade with `blockTs.get(bn) ?? 0`. -/
def applyTimestamps (getBlock : ℤ → Option ℤ) (combined : List CurveTrade) :
    List CurveTrade :=
  let uniqueBlocks := jsDedup (combined.map (·.blockNumber))
  let blockTs := buildBlockTs getBlock uniqueBlocks
  combined.map fun t =>
    { t with timestamp := (jsMapGet blockTs t.blockNumber).getD 0 }

/-- The block numbers a cycle passes to `provider.getBlock`, in order (empty
when the log fetch fails, since the cycle aborts before timestamp
resolution). -/
def cycleQueries (env : ChainEnv) (st : HookState) : List ℤ :=
  match fetchCombined env (scanRange env st).1 (scanRange env st).2 with
  | .ok combined => jsDedup (combined.map (·.blockNumber))
  | .error _ => []

/-- The fallible body of the `try` block of `fetchTrades`: fetch, parse,
resolve timestamps, merge into the known points, and advance the cursor to
`latest`. -/
def runCycle (env : ChainEnv) (st : HookState) :
    Except String (List CurveTrade × ℤ) := do
  let combined ← fetchCombined env (scanRange env st).1 (scanRange env st).2
  let newPoints := applyTimestamps env.getBlock combined
  pure (mergeTrades st.points newPoints, env.latest)

/-- `e?.shortMessage || e?.message || "Failed to load curve trades"` for
string-modelled errors. -/
def toMsg (e : String) : String :=
  if e = "" then "Failed to load curve trades" else e

/-- One full `fetchTrades` cycle as a state transition: on success publish
merged points and the new cursor; on failure keep previous points and cursor
and surface the error.  The deploy block is resolved (and persisted) before
the fallible fetch, so it is updated on both paths. -/
def fetchTradesCycle (env : ChainEnv) (st : HookState) : HookState :=
  let dep := resolveDeploy env st
  match runCycle env st with
  | .ok (pts, cur) =>
      { points := pts, loading := false, error := none,
        cursor := some cur, deploy := some dep }
  | .error e =>
      { st with loading := false, error := some (toMsg e), deploy := some dep }

/-! ## Helper lemmas: JS `Map` association lists -/

section MapLemmas

variable {κ α : Type} [DecidableEq κ]

theorem jsMapGet_nil (k : κ) : jsMapGet ([] : List (κ × α)) k = none := rfl

theorem jsMapGet_cons (a : κ) (b : α) (m : List (κ × α)) (k : κ) :
    jsMapGet ((a, b) :: m) k = if a = k then some b else jsMapGet m k := by
  by_cases h : a = k <;> simp [jsMapGet, List.find?_cons, h]

theorem jsMapGet_replace (m : List (κ × α)) (k k' : κ) (v : α) :
    jsMapGet (m.map (fun e => if e.1 = k then (k, v) else e)) k' =
      if k' = k then (jsMapGet m k).map (fun _ => v) else jsMapGet m k' := by
  induction m with
  | nil => by_cases h : k' = k <;> simp [jsMapGet_nil, h]
  | cons e m ih =>
      obtain ⟨a, b⟩ := e
      simp only [List.map_cons]
      by_cases ha : a = k <;> by_cases hk : k' = k <;>
        simp_all [jsMapGet_cons, Ne.symm]

theorem jsMapGet_append_single (m : List (κ × α)) (k k' : κ) (v : α) :
    jsMapGet (m ++ [(k, v)]) k' =
      (jsMapGet m k').orElse (fun _ => if k = k' then some v else none) := by
  induction m with
  | nil => by_cases h : k = k' <;> simp [jsMapGet_nil, jsMapGet_cons, h, Option.orElse]
  | cons e m ih =>
      obtain ⟨a, b⟩ := e
      by_cases ha : a = k' <;> simp [jsMapGet_cons, ha, ih, Option.orElse]

theorem jsMapGet_none_of_not_any (m : List (κ × α)) (k : κ)
    (h : ¬m.any (fun e => e.1 = k)) : jsMapGet m k = none := by
  induction m with
  | nil => rfl
  | cons e m ih =>
      simp only [List.any_cons, Bool.or_eq_true, not_or] at h
      obtain ⟨a, b⟩ := e
      have ha : ¬a = k := by simpa using h.1
      simp [jsMapGet_cons, ha, ih h.2]

/-- Get after set: the set key yields the new value, others are unchanged. -/
theorem jsMapGet_set (m : List (κ × α)) (k k' : κ) (v : α) :
    jsMapGet (jsMapSet m k v) k' = if k' = k then some v else jsMapGet m k' := by
  unfold jsMapSet
  by_cases hc : m.any (fun e => e.1 = k)
  · rw [if_pos hc, jsMapGet_replace]
    by_cases h : k' = k
    · subst h
      rcases List.any_eq_true.mp hc with ⟨e, he, hek⟩
      have hek' : e.1 = k' := by simpa using hek
      cases hg : jsMapGet m k' with
      | none =>
          exfalso
          unfold jsMapGet at hg
          rw [Option.map_eq_none'] at hg
          exact absurd (by simpa using List.find?_eq_none.mp hg e he)
            (by simp [hek'])
      | some b => simp
    · simp [h]
  · rw [if_neg hc, jsMapGet_append_single]
    by_cases h : k' = k
    · subst h
      rw [jsMapGet_none_of_not_any m k' hc]
      simp [Option.orElse]
    · rw [if_neg h, if_neg (fun hh => h hh.symm)]
      cases jsMapGet m k' <;> simp [Option.orElse]

/-- Keys after set: unchanged for a present key, appended otherwise. -/
theorem jsMapSet_keys (m : List (κ × α)) (k : κ) (v : α) :
    (jsMapSet m k v).map (·.1) =
      if k ∈ m.map (·.1) then m.map (·.1) else m.map (·.1) ++ [k] := by
  unfold jsMapSet
  by_cases hc : m.any (fun e => e.1 = k)
  · have hk : k ∈ m.map (·.1) := by
      rcases List.any_eq_true.mp hc with ⟨e, he, hek⟩
      exact List.mem_map.mpr ⟨e, he, by simpa using hek⟩
    rw [if_pos hc, if_pos hk, List.map_map]
    refine List.map_congr_left ?_
    intro e _
    by_cases h : e.1 = k <;> simp [h]
  · have hk : k ∉ m.map (·.1) := by
      intro hmem
      rcases List.mem_map.mp hmem with ⟨e, he, hek⟩
      exact hc (List.any_eq_true.mpr ⟨e, he, by simpa using hek⟩)
    rw [if_neg hc, if_neg hk, List.map_append]
    simp

/-- Set preserves key distinctness. -/
theorem jsMapSet_keys_nodup (m : List (κ × α)) (k : κ) (v : α)
    (h : (m.map (·.1)).Nodup) : ((jsMapSet m k v).map (·.1)).Nodup := by
  rw [jsMapSet_keys]
  split
  · exact h
  · simp_all [List.nodup_append]

/-- Every entry after a set is the new pair or an old entry. -/
theorem jsMapSet_mem (m : List (κ × α)) (k : κ) (v : α) (e' : κ × α)
    (h : e' ∈ jsMapSet m k v) : e' = (k, v) ∨ e' ∈ m := by
  unfold jsMapSet at h
  split at h
  · rcases List.mem_map.mp h with ⟨e, he, rfl⟩
    by_cases hek : e.1 = k
    · simp [hek]
    · simp [hek, he]
  · rcases List.mem_append.mp h with h | h
    · exact Or.inr h
    · simpa using Or.inl (by simpa using h)

end MapLemmas

/-! ## Helper lemmas: the `mergeTrades` key map -/

theorem mergeMap_eq_tradeFold (prev next : List CurveTrade) :
    mergeMap prev next = tradeFold (prev ++ next) [] := rfl

theorem tradeFold_append (ts us : List CurveTrade)
    (m : List ((String × ℤ) × CurveTrade)) :
    tradeFold (ts ++ us) m = tradeFold us (tradeFold ts m) :=
  List.foldl_append ..

theorem tradeFold_keys_nodup (ts : List CurveTrade)
    (m : List ((String × ℤ) × CurveTrade)) (h : (m.map (·.1)).Nodup) :
    ((tradeFold ts m).map (·.1)).Nodup := by
  induction ts generalizing m with
  | nil => exact h
  | cons t ts ih => exact ih _ (jsMapSet_keys_nodup _ _ _ h)

theorem tradeFold_entry_key (ts : List CurveTrade)
    (m : List ((String × ℤ) × CurveTrade)) (h : ∀ e ∈ m, keyOf e.2 = e.1) :
    ∀ e ∈ tradeFold ts m, keyOf e.2 = e.1 := by
  induction ts generalizing m with
  | nil => exact h
  | cons t ts ih =>
      refine ih _ ?_
      intro e he
      rcases jsMapSet_mem _ _ _ _ he with rfl | he'
      · rfl
      · exact h e he'

theorem lastWith_cons (t : CurveTrade) (ts : List CurveTrade) (k : String × ℤ) :
    lastWith (t :: ts) k =
      (lastWith ts k).orElse
        (fun _ => if keyOf t = k then some t else none) := by
  unfold lastWith
  by_cases h : keyOf t = k
  · simp only [List.filter_cons, decide_eq_true_eq, if_pos h, List.getLast?_cons]
    cases hg : (ts.filter (fun t => decide (keyOf t = k))).getLast? with
    | none => simp [hg, Option.orElse]
    | some u => simp [hg, Option.orElse]
  · simp only [List.filter_cons, decide_eq_true_eq, if_neg h]
    cases (ts.filter (fun t => decide (keyOf t = k))).getLast? <;>
      simp [Option.orElse]

/-- Lookup in the fold result: the last inserted record with the key wins,
falling back to the starting map. -/
theorem tradeFold_get (ts : List CurveTrade)
    (m : List ((String × ℤ) × CurveTrade)) (k : String × ℤ) :
    jsMapGet (tradeFold ts m) k =
      (lastWith ts k).orElse (fun _ => jsMapGet m k) := by
  induction ts generalizing m with
  | nil => simp [tradeFold, lastWith, Option.orElse]
  | cons t ts ih =>
      rw [show tradeFold (t :: ts) m = tradeFold ts (jsMapSet m (keyOf t) t) from rfl,
        ih, lastWith_cons, jsMapGet_set]
      cases lastWith ts k with
      | none =>
          by_cases h : keyOf t = k
          · subst h
            simp [Option.orElse]
          · simp only [Option.orElse, if_neg h]
            rw [if_neg (fun hh : k = keyOf t => h hh.symm)]
      | some u => simp [Option.orElse]

/-! ## Helper lemmas: association-map extensionality and merge facts -/

section MapLemmas2

variable {κ α : Type} [DecidableEq κ]

/-- A successful lookup exhibits a member entry. -/
theorem jsMapGet_eq_some_mem (m : List (κ × α)) (k : κ) (v : α)
    (h : jsMapGet m k = some v) : (k, v) ∈ m := by
  unfold jsMapGet at h
  cases hf : m.find? (fun e => e.1 = k) with
  | none => rw [hf] at h; simp at h
  | some e =>
      rw [hf] at h
      simp only [Option.map_some', Option.some.injEq] at h
      have hmem := List.mem_of_find?_eq_some hf
      have hkey : e.1 = k := by simpa using List.find?_some hf
      have he : e = (k, v) := by
        obtain ⟨e1, e2⟩ := e
        simp_all
      rwa [he] at hmem

/-- Over a map with distinct keys, lookup is membership. -/
theorem jsMapGet_eq_some_iff (m : List (κ × α))
    (hn : (m.map (·.1)).Nodup) (k : κ) (v : α) :
    jsMapGet m k = some v ↔ (k, v) ∈ m := by
  constructor
  · exact jsMapGet_eq_some_mem m k v
  · intro h
    have hsome : (m.find? (fun e => e.1 = k)).isSome := by
      rw [List.find?_isSome]
      exact ⟨(k, v), h, by simp⟩
    cases hf : m.find? (fun e => e.1 = k) with
    | none => rw [hf] at hsome; simp at hsome
    | some e =>
        have hmem := List.mem_of_find?_eq_some hf
        have hkey : e.1 = k := by simpa using List.find?_some hf
        have he : e = (k, v) :=
          List.inj_on_of_nodup_map hn hmem h (by simp [hkey])
        unfold jsMapGet
        rw [hf, he]
        rfl

/-- Two maps with the same key sequence (distinct keys) and the same lookups
are equal. -/
theorem jsMap_ext : ∀ (m₁ m₂ : List (κ × α)),
    m₁.map (·.1) = m₂.map (·.1) → (m₁.map (·.1)).Nodup →
    (∀ k, jsMapGet m₁ k = jsMapGet m₂ k) → m₁ = m₂ := by
  intro m₁
  induction m₁ with
  | nil =>
      intro m₂ hk _ _
      simp only [List.map_nil] at hk
      rw [List.map_eq_nil_iff.mp hk.symm]
  | cons e m ih =>
      intro m₂ hk hn hg
      obtain ⟨a, b⟩ := e
      cases m₂ with
      | nil => simp at hk
      | cons e₂ m₂' =>
          obtain ⟨a₂, b₂⟩ := e₂
          simp only [List.map_cons, List.cons.injEq] at hk
          obtain ⟨hae, hkeys⟩ := hk
          subst hae
          have hb : b = b₂ := by
            have := hg a
            rw [jsMapGet_cons, jsMapGet_cons, if_pos rfl, if_pos rfl] at this
            exact Option.some.inj this
          subst hb
          have hnotin : a ∉ m.map (·.1) := (List.nodup_cons.mp hn).1
          congr 1
          apply ih m₂' hkeys (List.nodup_cons.mp hn).2
          intro k
          by_cases hka : k = a
          · subst hka
            rw [jsMapGet_none_of_not_any, jsMapGet_none_of_not_any]
            · intro hany
              rcases List.any_eq_true.mp hany with ⟨e, he, hek⟩
              refine hnotin ?_
              rw [hkeys]
              exact List.mem_map.mpr ⟨e, he, by simpa using hek⟩
            · intro hany
              rcases List.any_eq_true.mp hany with ⟨e, he, hek⟩
              exact hnotin (List.mem_map.mpr ⟨e, he, by simpa using hek⟩)
          · have := hg k
            rw [jsMapGet_cons, jsMapGet_cons, if_neg (fun h => hka h.symm),
              if_neg (fun h => hka h.symm)] at this
            exact this

/-- Membership in the key sequence decides the `any` test of `jsMapSet`. -/
theorem any_keys_iff (m : List (κ × α)) (k : κ) :
    m.any (fun e => e.1 = k) = true ↔ k ∈ m.map (·.1) := by
  rw [List.any_eq_true]
  constructor
  · rintro ⟨e, he, hek⟩
    exact List.mem_map.mpr ⟨e, he, by simpa using hek⟩
  · rintro hmem
    rcases List.mem_map.mp hmem with ⟨e, he, hek⟩
    exact ⟨e, he, by simpa using hek⟩

/-- Setting an absent key appends the entry. -/
theorem jsMapSet_absent (m : List (κ × α)) (k : κ) (v : α)
    (h : k ∉ m.map (·.1)) : jsMapSet m k v = m ++ [(k, v)] := by
  unfold jsMapSet
  rw [if_neg]
  intro hany
  exact h ((any_keys_iff m k).mp hany)

end MapLemmas2

/-- Folding records with pairwise-distinct fresh keys appends them as
entries, in order. -/
theorem tradeFold_of_nodup :
    ∀ (M : List CurveTrade) (m : List ((String × ℤ) × CurveTrade)),
    (m.map (·.1) ++ M.map keyOf).Nodup →
    tradeFold M m = m ++ M.map (fun t => (keyOf t, t)) := by
  intro M
  induction M with
  | nil => intro m _; simp [tradeFold]
  | cons t M ih =>
      intro m hn
      have hfresh : keyOf t ∉ m.map (·.1) := by
        rcases List.nodup_append.mp hn with ⟨_, _, hdis⟩
        intro hmem
        exact hdis hmem (by simp)
      have hstep : tradeFold (t :: M) m =
          tradeFold M (m ++ [(keyOf t, t)]) := by
        unfold tradeFold
        rw [List.foldl_cons, jsMapSet_absent m (keyOf t) t hfresh]
      rw [hstep, ih (m ++ [(keyOf t, t)]) (by simpa [List.append_assoc] using hn)]
      simp

/-- Folding records whose keys are all present keeps the key sequence. -/
theorem tradeFold_keys_of_present :
    ∀ (B : List CurveTrade) (m : List ((String × ℤ) × CurveTrade)),
    (∀ b ∈ B, keyOf b ∈ m.map (·.1)) →
    (tradeFold B m).map (·.1) = m.map (·.1) := by
  intro B
  induction B with
  | nil => intro m _; rfl
  | cons b B ih =>
      intro m hmem
      have hb := hmem b (by simp)
      have hkeys : (jsMapSet m (keyOf b) b).map (·.1) = m.map (·.1) := by
        rw [jsMapSet_keys, if_pos hb]
      have hstep : tradeFold (b :: B) m = tradeFold B (jsMapSet m (keyOf b) b) := rfl
      rw [hstep, ih _ (fun b' hb' => by rw [hkeys]; exact hmem b' (by simp [hb'])), hkeys]

theorem lastWith_append (A B : List CurveTrade) (k : String × ℤ) :
    lastWith (A ++ B) k = (lastWith B k).orElse (fun _ => lastWith A k) := by
  unfold lastWith
  rw [List.filter_append, List.getLast?_append]
  cases (B.filter fun t => decide (keyOf t = k)).getLast? <;>
    cases (A.filter fun t => decide (keyOf t = k)).getLast? <;>
      simp [Option.or, Option.orElse]

theorem lastWith_isSome_of_mem (ts : List CurveTrade) (b : CurveTrade)
    (h : b ∈ ts) : (lastWith ts (keyOf b)).isSome := by
  unfold lastWith
  rw [List.getLast?_isSome]
  exact List.ne_nil_of_mem (List.mem_filter.mpr ⟨h, by simp⟩)

theorem lastWith_some_spec (ts : List CurveTrade) (k : String × ℤ)
    (u : CurveTrade) (h : lastWith ts k = some u) : u ∈ ts ∧ keyOf u = k := by
  unfold lastWith at h
  have hu : u ∈ ts.filter (fun t => decide (keyOf t = k)) := by
    rcases List.mem_getLast?_eq_getLast (Option.mem_def.mpr h) with ⟨hne, heq⟩
    rw [heq]
    exact List.getLast_mem hne
  rcases List.mem_filter.mp hu with ⟨hmem, hpred⟩
  exact ⟨hmem, by simpa using hpred⟩

/-- The key sequence of the merge map is the key image of its values. -/
theorem mergeMap_keys_eq (prev next : List CurveTrade) :
    (mergeMap prev next).map (·.1) =
      ((mergeMap prev next).map (·.2)).map keyOf := by
  have hentry := tradeFold_entry_key (prev ++ next) [] (by simp)
  rw [mergeMap_eq_tradeFold, List.map_map]
  exact (List.map_congr_left (fun e he => hentry e he)).symm

/-- The values of the merge map have pairwise-distinct keys. -/
theorem mergeMap_values_keyOf_nodup (prev next : List CurveTrade) :
    (((mergeMap prev next).map (·.2)).map keyOf).Nodup := by
  rw [← mergeMap_keys_eq]
  rw [mergeMap_eq_tradeFold]
  exact tradeFold_keys_nodup (prev ++ next) [] (by simp)

/-- The merged output has pairwise-distinct keys. -/
theorem mergeTrades_map_keyOf_nodup (prev next : List CurveTrade) :
    ((mergeTrades prev next).map keyOf).Nodup := by
  have hperm : (mergeTrades prev next).Perm ((mergeMap prev next).map (·.2)) :=
    List.perm_insertionSort tradeLe _
  exact ((hperm.map keyOf).nodup_iff).mpr (mergeMap_values_keyOf_nodup prev next)

/-! ## Claim C3: merged output is key-distinct and sorted -/

/-- C3: `mergeTrades` output never contains two records with the same
`(transactionHash, logIndex)` and is sorted ascending by
`(blockNumber, logIndex)`. -/
theorem c3_merge_wellformed (prev next : List CurveTrade) :
    ((mergeTrades prev next).map (fun t => (t.txHash, t.logIndex))).Nodup ∧
      (mergeTrades prev next).Sorted tradeLe := by
  constructor
  · have : ((mergeTrades prev next).map keyOf).Nodup :=
      mergeTrades_map_keyOf_nodup prev next
    have hfact : ∀ t : CurveTrade,
        keyOf t = (fun p : String × Option ℤ => (p.1, p.2.getD 0))
          (t.txHash, t.logIndex) := fun t => rfl
    have hmm : ((mergeTrades prev next).map
        (fun t => (t.txHash, t.logIndex))).map
          (fun p : String × Option ℤ => (p.1, p.2.getD 0)) =
        (mergeTrades prev next).map keyOf := by
      rw [List.map_map]
      exact List.map_congr_left (fun t _ => (hfact t).symm)
    exact List.Nodup.of_map _ (by rw [hmm]; assumption)
  · exact List.sorted_insertionSort tradeLe _

/-! ## Helper lemmas: merge idempotence and commutativity -/

/-- Idempotence at the list level: re-merging the same incoming batch is a
no-op. -/
theorem mergeTrades_idem (A B : List CurveTrade) :
    mergeTrades (mergeTrades A B) B = mergeTrades A B := by
  have hMnodup : ((mergeTrades A B).map keyOf).Nodup :=
    mergeTrades_map_keyOf_nodup A B
  have hperm : (mergeTrades A B).Perm ((mergeMap A B).map (·.2)) :=
    List.perm_insertionSort tradeLe _
  have hMassoc : tradeFold (mergeTrades A B) [] =
      (mergeTrades A B).map (fun t => (keyOf t, t)) := by
    have := tradeFold_of_nodup (mergeTrades A B) [] (by simpa using hMnodup)
    simpa using this
  have hkeysM : ((mergeTrades A B).map (fun t => (keyOf t, t))).map (·.1) =
      (mergeTrades A B).map keyOf := by
    rw [List.map_map]
    exact List.map_congr_left fun t _ => rfl
  have hBkeys : ∀ b ∈ B, keyOf b ∈ (mergeTrades A B).map keyOf := by
    intro b hb
    have hsome : (lastWith (A ++ B) (keyOf b)).isSome :=
      lastWith_isSome_of_mem (A ++ B) b (by simp [hb])
    cases hl : lastWith (A ++ B) (keyOf b) with
    | none => rw [hl] at hsome; simp at hsome
    | some u =>
        have hget : jsMapGet (mergeMap A B) (keyOf b) = some u := by
          rw [mergeMap_eq_tradeFold, tradeFold_get, hl]
          simp [Option.orElse]
        have hmem : (keyOf b, u) ∈ mergeMap A B :=
          jsMapGet_eq_some_mem _ _ _ hget
        have hkey : keyOf u = keyOf b := by
          have := tradeFold_entry_key (A ++ B) [] (by simp) (keyOf b, u)
            (by rwa [← mergeMap_eq_tradeFold])
          simpa using this
        have huM : u ∈ mergeTrades A B :=
          hperm.mem_iff.mpr (List.mem_map.mpr ⟨(keyOf b, u), hmem, rfl⟩)
        exact List.mem_map.mpr ⟨u, huM, hkey⟩
  have hpresent : ∀ b ∈ B,
      keyOf b ∈ ((mergeTrades A B).map (fun t => (keyOf t, t))).map (·.1) := by
    intro b hb
    rw [hkeysM]
    exact hBkeys b hb
  have hfold : tradeFold B ((mergeTrades A B).map (fun t => (keyOf t, t))) =
      (mergeTrades A B).map (fun t => (keyOf t, t)) := by
    apply jsMap_ext
    · exact tradeFold_keys_of_present B _ hpresent
    · rw [tradeFold_keys_of_present B _ hpresent, hkeysM]
      exact hMnodup
    · intro k
      rw [tradeFold_get]
      cases hl : lastWith B k with
      | none => simp [Option.orElse]
      | some u =>
          have husp := lastWith_some_spec B k u hl
          have hm0 : jsMapGet (mergeMap A B) k = some u := by
            rw [mergeMap_eq_tradeFold, tradeFold_get, lastWith_append, hl]
            simp [Option.orElse]
          have hmem : (k, u) ∈ mergeMap A B := jsMapGet_eq_some_mem _ _ _ hm0
          have huM : u ∈ mergeTrades A B :=
            hperm.mem_iff.mpr (List.mem_map.mpr ⟨(k, u), hmem, rfl⟩)
          have hgetM :
              jsMapGet ((mergeTrades A B).map (fun t => (keyOf t, t))) k =
                some u := by
            rw [jsMapGet_eq_some_iff _ (by rw [hkeysM]; exact hMnodup)]
            exact List.mem_map.mpr ⟨u, huM, by rw [husp.2]⟩
          rw [hgetM]
          simp [Option.orElse]
  show ((mergeMap (mergeTrades A B) B).map (·.2)).insertionSort tradeLe =
    mergeTrades A B
  rw [mergeMap_eq_tradeFold, tradeFold_append, hMassoc, hfold]
  have hvals : ((mergeTrades A B).map (fun t => (keyOf t, t))).map (·.2) =
      mergeTrades A B := by
    rw [List.map_map]
    exact List.map_id _
  rw [hvals]
  exact List.Sorted.insertionSort_eq (List.sorted_insertionSort tradeLe _)

/-- Membership in the merged output is lookup in the merge map at the
record's own key. -/
theorem mem_mergeTrades_iff_get (X Y : List CurveTrade) (t : CurveTrade) :
    t ∈ mergeTrades X Y ↔ jsMapGet (mergeMap X Y) (keyOf t) = some t := by
  have hperm : (mergeTrades X Y).Perm ((mergeMap X Y).map (·.2)) :=
    List.perm_insertionSort tradeLe _
  have hnodup : ((mergeMap X Y).map (·.1)).Nodup := by
    rw [mergeMap_eq_tradeFold]
    exact tradeFold_keys_nodup (X ++ Y) [] (by simp)
  constructor
  · intro h
    have hval : t ∈ (mergeMap X Y).map (·.2) := hperm.mem_iff.mp h
    rcases List.mem_map.mp hval with ⟨e, he, het⟩
    have hkey : keyOf e.2 = e.1 := tradeFold_entry_key (X ++ Y) [] (by simp) e
      (by rwa [← mergeMap_eq_tradeFold])
    rw [jsMapGet_eq_some_iff _ hnodup]
    have : e = (keyOf t, t) := by
      obtain ⟨k, v⟩ := e
      simp only at het
      subst het
      simp only at hkey
      rw [hkey]
    rwa [this] at he
  · intro h
    have hmem : (keyOf t, t) ∈ mergeMap X Y := jsMapGet_eq_some_mem _ _ _ h
    exact hperm.mem_iff.mpr (List.mem_map.mpr ⟨(keyOf t, t), hmem, rfl⟩)

/-- Lookup in the merge map: incoming wins, else the known record. -/
theorem mergeMap_get (X Y : List CurveTrade) (k : String × ℤ) :
    jsMapGet (mergeMap X Y) k =
      (lastWith Y k).orElse (fun _ => lastWith X k) := by
  rw [mergeMap_eq_tradeFold, tradeFold_get, lastWith_append]
  cases lastWith Y k <;> cases lastWith X k <;> simp [Option.orElse, jsMapGet_nil]

/-- When records of `A` and `B` sharing a key are identical, merging in
either order yields the same set of records. -/
theorem mergeTrades_comm_mem (A B : List CurveTrade)
    (hcompat : ∀ a ∈ A, ∀ b ∈ B, keyOf a = keyOf b → a = b)
    (t : CurveTrade) : t ∈ mergeTrades A B ↔ t ∈ mergeTrades B A := by
  rw [mem_mergeTrades_iff_get, mem_mergeTrades_iff_get, mergeMap_get,
    mergeMap_get]
  cases hB : lastWith B (keyOf t) with
  | none => cases lastWith A (keyOf t) <;> simp [Option.orElse]
  | some u =>
      cases hA : lastWith A (keyOf t) with
      | none => simp [Option.orElse]
      | some w =>
          have hu := lastWith_some_spec B (keyOf t) u hB
          have hw := lastWith_some_spec A (keyOf t) w hA
          have : w = u := hcompat w hw.1 u hu.1 (hw.2.trans hu.2.symm)
          subst this
          simp [Option.orElse]

/-! ## Claim C2: merge idempotence and commutativity -/

/-- C2 counterexample: with the same key `("h", 0)` but different timestamps
(a trade re-observed with a resolved timestamp), the incoming record wins, so
`merge(A,B)` and `merge(B,A)` differ as sets — the later-merged version
survives in each. -/
theorem c2_counterexample :
    mergeTrades
        [⟨.buy, "a", "c", 1, 1, 1, 0, "h", 1, some 0⟩]
        [⟨.buy, "a", "c", 1, 1, 1, 5, "h", 1, some 0⟩] =
      [⟨.buy, "a", "c", 1, 1, 1, 5, "h", 1, some 0⟩] ∧
    mergeTrades
        [⟨.buy, "a", "c", 1, 1, 1, 5, "h", 1, some 0⟩]
        [⟨.buy, "a", "c", 1, 1, 1, 0, "h", 1, some 0⟩] =
      [⟨.buy, "a", "c", 1, 1, 1, 0, "h", 1, some 0⟩] ∧
    (⟨.buy, "a", "c", 1, 1, 1, 5, "h", 1, some 0⟩ : CurveTrade) ∉
      mergeTrades
        [⟨.buy, "a", "c", 1, 1, 1, 5, "h", 1, some 0⟩]
        [⟨.buy, "a", "c", 1, 1, 1, 0, "h", 1, some 0⟩] := by
  refine ⟨by decide, by decide, by decide⟩

/-- C2 (amended): `merge(merge(A,B),B) = merge(A,B)` holds for all inputs
(even as ordered lists); `merge(A,B)` equals `merge(B,A)` as sets whenever
records of `A` and `B` sharing a `(transactionHash, logIndex)` key are
identical (unconditional set-commutativity fails, see the counterexample). -/
theorem c2_merge_idem_and_comm :
    (∀ A B : List CurveTrade, mergeTrades (mergeTrades A B) B = mergeTrades A B) ∧
      ∀ A B : List CurveTrade,
        (∀ a ∈ A, ∀ b ∈ B, keyOf a = keyOf b → a = b) →
        ∀ t, t ∈ mergeTrades A B ↔ t ∈ mergeTrades B A :=
  ⟨mergeTrades_idem, mergeTrades_comm_mem⟩

/-- Witness for C2 at concrete compatible inputs. -/
theorem c2_witness :
    (mergeTrades
        (mergeTrades [⟨.buy, "a", "c", 1, 1, 1, 0, "h1", 1, some 0⟩]
          [⟨.sell, "b", "c", 2, 2, 1, 7, "h2", 2, some 1⟩])
        [⟨.sell, "b", "c", 2, 2, 1, 7, "h2", 2, some 1⟩] =
      mergeTrades [⟨.buy, "a", "c", 1, 1, 1, 0, "h1", 1, some 0⟩]
        [⟨.sell, "b", "c", 2, 2, 1, 7, "h2", 2, some 1⟩]) ∧
    ((⟨.buy, "a", "c", 1, 1, 1, 0, "h1", 1, some 0⟩ : CurveTrade) ∈
        mergeTrades [⟨.buy, "a", "c", 1, 1, 1, 0, "h1", 1, some 0⟩]
          [⟨.sell, "b", "c", 2, 2, 1, 7, "h2", 2, some 1⟩] ↔
      (⟨.buy, "a", "c", 1, 1, 1, 0, "h1", 1, some 0⟩ : CurveTrade) ∈
        mergeTrades [⟨.sell, "b", "c", 2, 2, 1, 7, "h2", 2, some 1⟩]
          [⟨.buy, "a", "c", 1, 1, 1, 0, "h1", 1, some 0⟩]) :=
  ⟨c2_merge_idem_and_comm.1 _ _,
   c2_merge_idem_and_comm.2 _ _ (by decide) _⟩

/-! ## Helper lemmas: non-finite inputs contribute nothing to any build -/

/-- A point failing the finiteness filter is dropped by `chartFilter1`. -/
theorem chartFilter1_drop (q : ChartPoint1)
    (h : (q.timestamp.isFinite && q.value.isFinite) = false)
    (A B : List ChartPoint1) :
    chartFilter1 (A ++ q :: B) = chartFilter1 (A ++ B) := by
  unfold chartFilter1
  rw [List.filterMap_append, List.filterMap_append, List.filterMap_cons]
  cases ht : q.timestamp <;> cases hv : q.value <;>
    simp_all [JsNum.isFinite]

/-- A point failing the finiteness filter is dropped by `chartFilter2`. -/
theorem chartFilter2_drop (q : ChartPoint2)
    (h : (q.timestamp.isFinite && q.value.isFinite) = false)
    (A B : List ChartPoint2) :
    chartFilter2 (A ++ q :: B) = chartFilter2 (A ++ B) := by
  unfold chartFilter2
  rw [List.filterMap_append, List.filterMap_append, List.filterMap_cons]
  cases ht : q.timestamp <;> cases hv : q.value <;>
    simp_all [JsNum.isFinite]

/-- A trade failing the finiteness filter is dropped by `filterTv`. -/
theorem filterTv_drop (q : RawTvTrade)
    (h : (q.timestamp.isFinite && q.price.isFinite && q.volume.isFinite) = false)
    (A B : List RawTvTrade) :
    filterTv (A ++ q :: B) = filterTv (A ++ B) := by
  unfold filterTv
  rw [List.filterMap_append, List.filterMap_append, List.filterMap_cons]
  cases ht : q.timestamp <;> cases hp : q.price <;> cases hv : q.volume <;>
    simp_all [JsNum.isFinite]

/-- Dropping the redundant emptiness guard: each build equals its core on the
sorted filtered input (an all-filtered-out nonempty input also yields the
empty result). -/
theorem buildCandles1_eq_core (pts : List ChartPoint1) (i : ℤ) (e : Bool)
    (n : ℤ) :
    buildCandles1 pts i e n =
      bc1Core ((chartFilter1 pts).insertionSort p1Le) i e n := by
  cases pts with
  | nil => rfl
  | cons p rest => rw [buildCandles1, if_neg (by simp)]

theorem buildCandles2_eq_core (pts : List ChartPoint2) (i : ℤ) :
    buildCandles2 pts i = bc2Core ((chartFilter2 pts).insertionSort p2Le) i := by
  cases pts with
  | nil => rfl
  | cons p rest => rw [buildCandles2, if_neg (by simp)]

theorem toCandlesAndVolume_eq_core (colors : Colors) (trades : List RawTvTrade)
    (i : ℤ) :
    toCandlesAndVolume colors trades i =
      tvCore colors ((filterTv trades).insertionSort tvLe) i := by
  cases trades with
  | nil => rfl
  | cons p rest => rw [toCandlesAndVolume, if_neg (by simp)]

/-- Removing a non-finite point does not change the first build variant. -/
theorem buildCandles1_drop (q : ChartPoint1)
    (h : (q.timestamp.isFinite && q.value.isFinite) = false)
    (A B : List ChartPoint1) (i : ℤ) (e : Bool) (n : ℤ) :
    buildCandles1 (A ++ q :: B) i e n = buildCandles1 (A ++ B) i e n := by
  rw [buildCandles1_eq_core, buildCandles1_eq_core, chartFilter1_drop q h]

/-- Removing a non-finite point does not change the second build variant. -/
theorem buildCandles2_drop (q : ChartPoint2)
    (h : (q.timestamp.isFinite && q.value.isFinite) = false)
    (A B : List ChartPoint2) (i : ℤ) :
    buildCandles2 (A ++ q :: B) i = buildCandles2 (A ++ B) i := by
  rw [buildCandles2_eq_core, buildCandles2_eq_core, chartFilter2_drop q h]

/-- Removing a non-finite trade does not change `toCandlesAndVolume`. -/
theorem toCandlesAndVolume_drop (colors : Colors) (q : RawTvTrade)
    (h : (q.timestamp.isFinite && q.price.isFinite && q.volume.isFinite) = false)
    (A B : List RawTvTrade) (i : ℤ) :
    toCandlesAndVolume colors (A ++ q :: B) i =
      toCandlesAndVolume colors (A ++ B) i := by
  rw [toCandlesAndVolume_eq_core, toCandlesAndVolume_eq_core, filterTv_drop q h]

/-! ## Claim C5: which trades the full rebuilds exclude -/

/-- C5 counterexample: a finite trade with negative (non-positive) price and
positive timestamp is NOT excluded by the second build variant — it alone
produces a bucket whose open/high/low/close are its price and whose volume is
its volume. -/
theorem c5_counterexample :
    buildCandles2 [⟨.num 10, .num (-1), some 2⟩] 60 =
      ([⟨0, -1, -1, -1, -1⟩], [⟨0, 2⟩]) := by
  have hb : bucketOf 10 60 = 0 := by norm_num [bucketOf]
  rw [buildCandles2_eq_core]
  show (([⟨bucketOf 10 60, -1, -1, -1, -1⟩], [⟨bucketOf 10 60, 2⟩]) :
      List Candle × List VolumeBar2) =
    ([⟨0, -1, -1, -1, -1⟩], [⟨0, 2⟩])
  rw [hb]

/-- C5 (amended): each full-rebuild build excludes exactly the trades whose
price or timestamp is non-finite — removing such a trade never changes the
output — while finite non-positive prices/timestamps are retained (see the
counterexample). -/
theorem c5_build_filters_nonfinite :
    (∀ (q : ChartPoint1), (q.timestamp.isFinite && q.value.isFinite) = false →
      ∀ (A B : List ChartPoint1) (i : ℤ) (e : Bool) (n : ℤ),
        buildCandles1 (A ++ q :: B) i e n = buildCandles1 (A ++ B) i e n) ∧
    (∀ (q : ChartPoint2), (q.timestamp.isFinite && q.value.isFinite) = false →
      ∀ (A B : List ChartPoint2) (i : ℤ),
        buildCandles2 (A ++ q :: B) i = buildCandles2 (A ++ B) i) ∧
    ∀ (colors : Colors) (q : RawTvTrade),
      (q.timestamp.isFinite && q.price.isFinite && q.volume.isFinite) = false →
      ∀ (A B : List RawTvTrade) (i : ℤ),
        toCandlesAndVolume colors (A ++ q :: B) i =
          toCandlesAndVolume colors (A ++ B) i :=
  ⟨fun q h A B i e n => buildCandles1_drop q h A B i e n,
   fun q h A B i => buildCandles2_drop q h A B i,
   fun colors q h A B i => toCandlesAndVolume_drop colors q h A B i⟩

/-- Witness for C5: a NaN-priced point between two finite points is ignored
by all three builds. -/
theorem c5_witness :
    (buildCandles1 ([⟨.num 0, .num 1⟩] ++ (⟨.num 3, .nan⟩ : ChartPoint1) ::
        [⟨.num 70, .num 2⟩]) 60 false 0 =
      buildCandles1 ([⟨.num 0, .num 1⟩] ++ [⟨.num 70, .num 2⟩]) 60 false 0) ∧
    (buildCandles2 ([⟨.num 0, .num 1, some 1⟩] ++
        (⟨.num 3, .nan, some 1⟩ : ChartPoint2) :: [⟨.num 70, .num 2, some 1⟩]) 60 =
      buildCandles2 ([⟨.num 0, .num 1, some 1⟩] ++ [⟨.num 70, .num 2, some 1⟩]) 60) ∧
    (toCandlesAndVolume ⟨"g", "r", "n"⟩ ([⟨.num 0, .num 1, .num 1, some .buy⟩] ++
        (⟨.num 3, .nan, .num 1, none⟩ : RawTvTrade) ::
          [⟨.num 70, .num 2, .num 1, some .sell⟩]) 60 =
      toCandlesAndVolume ⟨"g", "r", "n"⟩ ([⟨.num 0, .num 1, .num 1, some .buy⟩] ++
        [⟨.num 70, .num 2, .num 1, some .sell⟩]) 60) :=
  ⟨c5_build_filters_nonfinite.1 _ (by decide) _ _ 60 false 0,
   c5_build_filters_nonfinite.2.1 _ (by decide) _ _ 60,
   c5_build_filters_nonfinite.2.2 _ _ (by decide) _ _ 60⟩

/-! ## Helper lemmas: bucket monotonicity and sortedness -/

/-- `bucketOf` is monotone in the timestamp for a positive width. -/
theorem bucketOf_mono {i : ℤ} (hi : 0 < i) {a b : ℚ} (h : a ≤ b) :
    bucketOf a i ≤ bucketOf b i := by
  unfold bucketOf
  have hiq : (0 : ℚ) < (i : ℚ) := by exact_mod_cast hi
  have hd : a / (i : ℚ) ≤ b / (i : ℚ) := (div_le_div_iff_of_pos_right hiq).mpr h
  exact mul_le_mul_of_nonneg_right (Int.floor_le_floor hd) (le_of_lt hi)

/-- `bucketSec` is monotone in the timestamp for a positive width. -/
theorem bucketSec_mono {i : ℤ} (hi : 0 < i) {a b : ℚ} (h : a ≤ b) :
    bucketSec a i ≤ bucketSec b i := by
  unfold bucketSec
  rw [Int.fdiv_eq_ediv _ (le_of_lt hi), Int.fdiv_eq_ediv _ (le_of_lt hi)]
  exact mul_le_mul_of_nonneg_right
    (Int.ediv_le_ediv hi (Int.floor_le_floor h)) (le_of_lt hi)

/-- A strictly increasing time sequence yields a `candleLe`-sorted candle
list. -/
theorem sorted_candles_of_chain (cs : List Candle)
    (h : (cs.map (·.time)).Chain' (· < ·)) : cs.Sorted candleLe := by
  have hp : (cs.map (·.time)).Pairwise (· < ·) := List.chain'_iff_pairwise.mp h
  have hp' : (cs.map (·.time)).Pairwise (· ≤ ·) := hp.imp le_of_lt
  rw [List.pairwise_map] at hp'
  exact hp'

/-! ## Helper lemmas: the second build variant is sorted and gap-free -/

/-- Invariant of the second variant's fold over a sorted tail: emitted candle
times are strictly increasing, all lie strictly before the current bucket,
and the current bucket is the bucket of a processed timestamp. -/
theorem bc2_fold_inv (i : ℤ) (hi : 0 < i) :
    ∀ (rest : List QChartPoint2) (st : AggSt2) (lastTs : ℚ),
      rest.Sorted p2Le → (∀ q ∈ rest, lastTs ≤ q.timestamp) →
      st.bucketStart = bucketOf lastTs i →
      (st.candles.map (·.time)).Chain' (· < ·) →
      (∀ c ∈ st.candles, c.time < st.bucketStart) →
      ((rest.foldl (bc2Step i) st).candles.map (·.time)).Chain' (· < ·) ∧
        (∀ c ∈ (rest.foldl (bc2Step i) st).candles,
          c.time < (rest.foldl (bc2Step i) st).bucketStart) ∧
        ∃ lastTs' : ℚ,
          (rest.foldl (bc2Step i) st).bucketStart = bucketOf lastTs' i := by
  intro rest
  induction rest with
  | nil =>
      intro st lastTs _ _ hb hc hlt
      exact ⟨hc, hlt, lastTs, hb⟩
  | cons p rest ih =>
      intro st lastTs hsort hge hb hc hlt
      rw [List.foldl_cons]
      have hbge : st.bucketStart ≤ bucketOf p.timestamp i := by
        rw [hb]
        exact bucketOf_mono hi (hge p (by simp))
      have hsort' : rest.Sorted p2Le := (List.sorted_cons.mp hsort).2
      have hge' : ∀ q ∈ rest, p.timestamp ≤ q.timestamp := fun q hq =>
        (List.sorted_cons.mp hsort).1 q hq
      by_cases hne : bucketOf p.timestamp i ≠ st.bucketStart
      · have hgt : st.bucketStart < bucketOf p.timestamp i :=
          lt_of_le_of_ne hbge (fun hh => hne hh.symm)
        have hstep : bc2Step i st p =
            { bucketStart := bucketOf p.timestamp i, open_ := p.value,
              high := p.value, low := p.value, close := p.value,
              vol := p.volume.getD 0,
              candles := st.candles ++
                [⟨st.bucketStart, st.open_, st.high, st.low, st.close⟩],
              volumes := st.volumes ++ [⟨st.bucketStart, st.vol⟩] } := by
          unfold bc2Step
          rw [if_pos hne]
        rw [hstep]
        apply ih _ p.timestamp hsort' hge' rfl
        · rw [List.map_append]
          rw [List.chain'_append]
          refine ⟨hc, by simp, ?_⟩
          intro x hx y hy
          simp only [List.map_cons, List.map_nil, List.head?_cons,
            Option.mem_def, Option.some.injEq] at hy
          subst hy
          rcases List.mem_getLast?_eq_getLast (Option.mem_def.mpr hx) with ⟨hne', heq⟩
          have hxmem : x ∈ st.candles.map (·.time) := by
            rw [heq]
            exact List.getLast_mem hne'
          rcases List.mem_map.mp hxmem with ⟨c, hcm, rfl⟩
          simpa using hlt c hcm
        · intro c hcm
          rcases List.mem_append.mp hcm with hcm | hcm
          · exact lt_trans (hlt c hcm) hgt
          · simp only [List.mem_singleton] at hcm
            subst hcm
            simpa using hgt
      · push_neg at hne
        have hstep : bc2Step i st p =
            { st with high := max st.high p.value, low := min st.low p.value,
                      close := p.value, vol := st.vol + p.volume.getD 0 } := by
          unfold bc2Step
          rw [if_neg (by simpa using hne)]
        rw [hstep]
        exact ih _ p.timestamp hsort' hge' (by simpa using hne.symm) hc hlt

/-- Every candle time produced by the fold is the bucket of an input point. -/
theorem bc2_fold_origin (i : ℤ) (S : List QChartPoint2) :
    ∀ (rest : List QChartPoint2) (st : AggSt2),
      (∀ q ∈ rest, q ∈ S) →
      (∀ c ∈ st.candles, ∃ p ∈ S, c.time = bucketOf p.timestamp i) →
      (∃ p ∈ S, st.bucketStart = bucketOf p.timestamp i) →
      (∀ c ∈ (rest.foldl (bc2Step i) st).candles,
          ∃ p ∈ S, c.time = bucketOf p.timestamp i) ∧
        ∃ p ∈ S, (rest.foldl (bc2Step i) st).bucketStart =
          bucketOf p.timestamp i := by
  intro rest
  induction rest with
  | nil =>
      intro st _ hc hb
      exact ⟨hc, hb⟩
  | cons p rest ih =>
      intro st hmem hc hb
      rw [List.foldl_cons]
      have hmem' : ∀ q ∈ rest, q ∈ S := fun q hq => hmem q (by simp [hq])
      have hpS : p ∈ S := hmem p (by simp)
      unfold bc2Step
      by_cases hne : bucketOf p.timestamp i ≠ st.bucketStart
      · rw [if_pos hne]
        apply ih _ hmem'
        · intro c hcm
          rcases List.mem_append.mp hcm with hcm | hcm
          · exact hc c hcm
          · simp only [List.mem_singleton] at hcm
            subst hcm
            simpa using hb
        · exact ⟨p, hpS, rfl⟩
      · rw [if_neg hne]
        exact ih _ hmem' hc hb

/-- The second build variant: candles sorted ascending, and no candle for a
bucket without trades. -/
theorem bc2_sorted_nogap (pts : List ChartPoint2) (i : ℤ) (hi : 0 < i) :
    (buildCandles2 pts i).1.Sorted candleLe ∧
      ∀ c ∈ (buildCandles2 pts i).1,
        ∃ p ∈ chartFilter2 pts, c.time = bucketOf p.timestamp i := by
  rw [buildCandles2_eq_core]
  cases hs : (chartFilter2 pts).insertionSort p2Le with
  | nil => simp [bc2Core]
  | cons p rest =>
      have hsortAll : (p :: rest).Sorted p2Le := by
        rw [← hs]
        exact List.sorted_insertionSort p2Le _
      have hmemS : ∀ q ∈ p :: rest, q ∈ chartFilter2 pts := by
        intro q hq
        have hml : q ∈ (chartFilter2 pts).insertionSort p2Le := by
          rw [hs]
          exact hq
        exact (List.mem_insertionSort p2Le).mp hml
      set st0 : AggSt2 :=
        { bucketStart := bucketOf p.timestamp i, open_ := p.value,
          high := p.value, low := p.value, close := p.value,
          vol := p.volume.getD 0, candles := [], volumes := [] } with hst0
      set stF := rest.foldl (bc2Step i) st0 with hstF
      have hcore : bc2Core (p :: rest) i =
          (stF.candles ++ [⟨stF.bucketStart, stF.open_, stF.high, stF.low, stF.close⟩],
           stF.volumes ++ [⟨stF.bucketStart, stF.vol⟩]) := rfl
      have hinv := bc2_fold_inv i hi rest st0 p.timestamp
        (List.sorted_cons.mp hsortAll).2
        (fun q hq => (List.sorted_cons.mp hsortAll).1 q hq)
        (by rw [hst0]) (by rw [hst0]; simp) (by rw [hst0]; simp)
      rw [← hstF] at hinv
      have horig := bc2_fold_origin i (p :: rest) rest st0
        (fun q hq => by simp [hq]) (by rw [hst0]; simp)
        ⟨p, by simp, by rw [hst0]⟩
      rw [← hstF] at horig
      rw [hcore]
      constructor
      · apply sorted_candles_of_chain
        rw [List.map_append, List.chain'_append]
        refine ⟨hinv.1, by simp, ?_⟩
        intro x hx y hy
        simp only [List.map_cons, List.map_nil, List.head?_cons,
          Option.mem_def, Option.some.injEq] at hy
        subst hy
        rcases List.mem_getLast?_eq_getLast (Option.mem_def.mpr hx) with ⟨hne', heq⟩
        have hxmem : x ∈ stF.candles.map (·.time) := by
          rw [heq]
          exact List.getLast_mem hne'
        rcases List.mem_map.mp hxmem with ⟨c, hcm, rfl⟩
        simpa using hinv.2.1 c hcm
      · intro c hcm
        rcases List.mem_append.mp hcm with hcm | hcm
        · rcases horig.1 c hcm with ⟨q, hq, hqt⟩
          exact ⟨q, hmemS q hq, hqt⟩
        · simp only [List.mem_singleton] at hcm
          subst hcm
          rcases horig.2 with ⟨q, hq, hqt⟩
          exact ⟨q, hmemS q hq, by simpa using hqt⟩

/-! ## Helper lemmas: `toCandlesAndVolume` is sorted and gap-free -/

/-- Candle-map entries of the incremental-builder fold: every entry's value
carries its key as time, and every key is the bucket of a processed trade. -/
theorem tvFold_candle_entries (colors : Colors) (i : ℤ) :
    ∀ (ts : List TvTrade) (st : List (ℤ × Candle) × List (ℤ × VolumeBar)),
      (∀ e ∈ st.1, (e.2 : Candle).time = e.1) →
      ∀ e ∈ (ts.foldl (tvStep colors i) st).1,
        (e.2 : Candle).time = e.1 ∧
          ((∃ tr ∈ ts, e.1 = bucketSec tr.timestamp i) ∨ e ∈ st.1) := by
  intro ts
  induction ts with
  | nil =>
      intro st hst e he
      exact ⟨hst e he, Or.inr he⟩
  | cons tr ts ih =>
      intro st hst e he
      rw [List.foldl_cons] at he
      have hst' : ∀ e ∈ (tvStep colors i st tr).1, (e.2 : Candle).time = e.1 := by
        intro e' he'
        unfold tvStep at he'
        simp only at he'
        rcases hget : jsMapGet st.1 (bucketSec tr.timestamp i) with _ | c
        · rw [hget] at he'
          rcases jsMapSet_mem _ _ _ _ he' with rfl | hmem
          · rfl
          · exact hst e' hmem
        · rw [hget] at he'
          rcases jsMapSet_mem _ _ _ _ he' with rfl | hmem
          · have hc : (bucketSec tr.timestamp i, c) ∈ st.1 :=
              jsMapGet_eq_some_mem _ _ _ hget
            simpa using hst _ hc
          · exact hst e' hmem
      rcases ih (tvStep colors i st tr) hst' e he with ⟨htime, hor⟩
      refine ⟨htime, ?_⟩
      rcases hor with ⟨tr', htr', hb⟩ | hmem
      · exact Or.inl ⟨tr', by simp [htr'], hb⟩
      · unfold tvStep at hmem
        simp only at hmem
        rcases hget : jsMapGet st.1 (bucketSec tr.timestamp i) with _ | c <;>
          rw [hget] at hmem <;>
          rcases jsMapSet_mem _ _ _ _ hmem with rfl | hmem'
        · exact Or.inl ⟨tr, by simp, rfl⟩
        · exact Or.inr hmem'
        · exact Or.inl ⟨tr, by simp, rfl⟩
        · exact Or.inr hmem'

/-- `toCandlesAndVolume`: candles sorted ascending by bucket time, and every
candle's time is the bucket of some surviving trade. -/
theorem toCandles_sorted_nogap (colors : Colors) (trades : List RawTvTrade)
    (i : ℤ) :
    (toCandlesAndVolume colors trades i).1.Sorted candleLe ∧
      ∀ c ∈ (toCandlesAndVolume colors trades i).1,
        ∃ tr ∈ filterTv trades, c.time = bucketSec tr.timestamp i := by
  rw [toCandlesAndVolume_eq_core]
  constructor
  · exact List.sorted_insertionSort candleLe _
  · intro c hc
    unfold tvCore at hc
    simp only at hc
    rw [List.mem_insertionSort] at hc
    rcases List.mem_map.mp hc with ⟨e, he, rfl⟩
    rcases tvFold_candle_entries colors i _ ([], []) (by simp) e he with
      ⟨htime, hor⟩
    rcases hor with ⟨tr, htr, hb⟩ | hmem
    · exact ⟨tr, (List.mem_insertionSort tvLe).mp htr, by rw [htime, hb]⟩
    · simp at hmem

/-! ## Helper lemmas: the first build variant is sorted (and gap-fills) -/

/-- The bucket range is strictly increasing. -/
theorem bucketRange_chain (i : ℤ) :
    ∀ (t lastB : ℤ), ((bucketRange t lastB i).Chain' (· < ·)) ∧
      ∀ x ∈ bucketRange t lastB i, t ≤ x := by
  intro t lastB
  induction t, lastB, i using bucketRange.induct with
  | case1 t lastB i hpos hle ih =>
      rw [bucketRange]
      simp only [dif_pos hpos, if_pos hle]
      refine ⟨List.chain'_cons'.mpr ⟨?_, ih.1⟩, ?_⟩
      · intro y hy
        have hymem : y ∈ bucketRange (t + i) lastB i :=
          List.mem_of_mem_head? hy
        have := ih.2 y hymem
        omega
      · intro x hx
        rcases List.mem_cons.mp hx with rfl | hx
        · exact le_refl x
        · have := ih.2 x hx
          omega
  | case2 t lastB i hpos hle =>
      rw [bucketRange]
      simp [dif_pos hpos, if_neg hle]
  | case3 t lastB i hpos =>
      rw [bucketRange]
      simp [dif_neg hpos]

/-- The emission fold produces exactly one candle per range element, stamped
with that element as its time. -/
theorem fillCandles_times (m : List (ℤ × OHLC)) :
    ∀ (range : List ℤ) (acc : List Candle) (pc : ℚ),
      ((range.foldl (fun (acc : List Candle × ℚ) t =>
        match jsMapGet m t with
        | some b => (acc.1 ++ [⟨t, b.open_, b.high, b.low, b.close⟩], b.close)
        | none => (acc.1 ++ [⟨t, acc.2, acc.2, acc.2, acc.2⟩], acc.2))
        (acc, pc)).1).map (·.time) = acc.map (·.time) ++ range := by
  intro range
  induction range with
  | nil => intro acc pc; simp
  | cons t range ih =>
      intro acc pc
      rw [List.foldl_cons]
      cases hget : jsMapGet m t with
      | some b =>
          simp only [hget]
          rw [ih]
          simp
      | none =>
          simp only [hget]
          rw [ih]
          simp

/-- The times of the first variant's output are exactly the bucket range. -/
theorem fillCandles_map_time (m : List (ℤ × OHLC)) (range : List ℤ) (pc : ℚ) :
    (fillCandles m range pc).map (·.time) = range := by
  unfold fillCandles
  rw [fillCandles_times]
  simp

/-- Output times of the first variant's core on a nonempty sorted list. -/
theorem bc1Core_map_time (p : QChartPoint1) (rest : List QChartPoint1)
    (i : ℤ) (e : Bool) (n : ℤ) :
    (bc1Core (p :: rest) i e n).map (·.time) =
      bucketRange (bucketOf p.timestamp i)
        (if e then max (bucketOf (rest.getLastD p).timestamp i)
            (bucketOf (n : ℚ) i)
          else bucketOf (rest.getLastD p).timestamp i) i := by
  show (fillCandles _ _ _).map (·.time) = _
  rw [fillCandles_map_time]

/-- The first build variant always emits candles sorted ascending by time. -/
theorem bc1_sorted (pts : List ChartPoint1) (i : ℤ) (e : Bool) (n : ℤ) :
    (buildCandles1 pts i e n).Sorted candleLe := by
  rw [buildCandles1_eq_core]
  cases hs : (chartFilter1 pts).insertionSort p1Le with
  | nil => simp [bc1Core]
  | cons p rest =>
      apply sorted_candles_of_chain
      rw [bc1Core_map_time]
      exact (bucketRange_chain i _ _).1

/-! ## Claim C4: build output ordering and gap behaviour -/

/-- C4 counterexample: the first build variant emits a candle for the empty
bucket `[60, 120)` of the input `{t=0, t=120}` at width 60 — a time interval
in which no trade falls — so the no-gap-filling claim fails on it. -/
theorem c4_counterexample :
    (buildCandles1 [⟨.num 0, .num 1⟩, ⟨.num 120, .num 2⟩] 60 false 0).map
        (·.time) = [0, 60, 120] ∧
      ∀ p ∈ chartFilter1 [⟨.num 0, .num 1⟩, ⟨.num 120, .num 2⟩],
        bucketOf p.timestamp 60 ≠ 60 := by
  have h0 : bucketOf 0 60 = 0 := by norm_num [bucketOf]
  have h120 : bucketOf 120 60 = 120 := by norm_num [bucketOf]
  have hfil : chartFilter1 [⟨.num 0, .num 1⟩, ⟨.num 120, .num 2⟩] =
      [⟨0, 1⟩, ⟨120, 2⟩] := by decide
  have hbr : bucketRange 0 120 60 = [0, 60, 120] := by
    rw [bucketRange]; norm_num
    rw [bucketRange]; norm_num
    rw [bucketRange]; norm_num
    rw [bucketRange]; norm_num
  constructor
  · rw [buildCandles1_eq_core, hfil]
    have hsort : ([⟨0, 1⟩, ⟨120, 2⟩] :
        List QChartPoint1).insertionSort p1Le = [⟨0, 1⟩, ⟨120, 2⟩] := by
      apply List.Sorted.insertionSort_eq
      simp [List.sorted_cons, p1Le]
    rw [hsort, bc1Core_map_time]
    show bucketRange (bucketOf 0 60) (bucketOf 120 60) 60 = [0, 60, 120]
    rw [h0, h120, hbr]
  · intro p hp
    rw [hfil] at hp
    rcases List.mem_cons.mp hp with rfl | hp
    · show bucketOf 0 60 ≠ 60
      rw [h0]
      decide
    · rcases List.mem_cons.mp hp with rfl | hp
      · show bucketOf 120 60 ≠ 60
        rw [h120]
        decide
      · simp at hp

/-- C4 (amended): candles are emitted sorted ascending by bucketStart in all
three full rebuilds; the second variant and `toCandlesAndVolume` emit no
candle for a bucket without trades, while the first variant fills internal
empty buckets with flat candles (see the counterexample). -/
theorem c4_build_sorted_nogap :
    (∀ (colors : Colors) (trades : List RawTvTrade) (i : ℤ),
        (toCandlesAndVolume colors trades i).1.Sorted candleLe ∧
          ∀ c ∈ (toCandlesAndVolume colors trades i).1,
            ∃ tr ∈ filterTv trades, c.time = bucketSec tr.timestamp i) ∧
      (∀ (pts : List ChartPoint2) (i : ℤ), 0 < i →
          (buildCandles2 pts i).1.Sorted candleLe ∧
            ∀ c ∈ (buildCandles2 pts i).1,
              ∃ p ∈ chartFilter2 pts, c.time = bucketOf p.timestamp i) ∧
      ∀ (pts : List ChartPoint1) (i : ℤ) (e : Bool) (n : ℤ),
        (buildCandles1 pts i e n).Sorted candleLe :=
  ⟨toCandles_sorted_nogap, bc2_sorted_nogap, bc1_sorted⟩

/-- Witness for C4 at concrete single-trade inputs. -/
theorem c4_witness :
    ((toCandlesAndVolume ⟨"g", "r", "n"⟩ [⟨.num 10, .num 1, .num 1, some .buy⟩]
        60).1.Sorted candleLe ∧
      ∀ c ∈ (toCandlesAndVolume ⟨"g", "r", "n"⟩
          [⟨.num 10, .num 1, .num 1, some .buy⟩] 60).1,
        ∃ tr ∈ filterTv [⟨.num 10, .num 1, .num 1, some .buy⟩],
          c.time = bucketSec tr.timestamp 60) ∧
      ((buildCandles2 [⟨.num 10, .num 1, some 1⟩] 60).1.Sorted candleLe ∧
        ∀ c ∈ (buildCandles2 [⟨.num 10, .num 1, some 1⟩] 60).1,
          ∃ p ∈ chartFilter2 [⟨.num 10, .num 1, some 1⟩],
            c.time = bucketOf p.timestamp 60) ∧
      (buildCandles1 [⟨.num 10, .num 1⟩] 60 false 0).Sorted candleLe :=
  ⟨c4_build_sorted_nogap.1 _ _ 60,
   c4_build_sorted_nogap.2.1 _ 60 (by norm_num),
   c4_build_sorted_nogap.2.2 _ 60 false 0⟩

/-! ## Helper lemmas: chunked fetch -/

/-- Concrete chunk starts for the spec's example range. -/
theorem chunkStarts_0_1999 : chunkStarts 0 1999 = [0, 500, 1000, 1500] := by
  rw [chunkStarts]; norm_num [LOG_CHUNK_SIZE]
  rw [chunkStarts]; norm_num [LOG_CHUNK_SIZE]
  rw [chunkStarts]; norm_num [LOG_CHUNK_SIZE]
  rw [chunkStarts]; norm_num [LOG_CHUNK_SIZE]
  rw [chunkStarts]; norm_num [LOG_CHUNK_SIZE]

/-- An errored trace fold stays errored and issues no further requests. -/
theorem getLogsChunkedT_foldl_error {Log : Type}
    (g : ℤ → ℤ → ℕ → Except String (List Log)) (toBlock : ℤ) (l : List ℤ)
    (acc : List (ℤ × ℤ)) (e : String) :
    l.foldl
      (fun (acc : List (ℤ × ℤ) × Except String (List Log)) s =>
        match acc.2 with
        | .error _ => acc
        | .ok logs =>
          let e := subRangeEnd toBlock s
          match attemptLoop (fun attempt => g s e attempt) with
          | .ok chunk => (acc.1 ++ [(s, e)], .ok (logs ++ chunk))
          | .error err => (acc.1 ++ [(s, e)], .error err))
      (acc, .error e) = (acc, .error e) := by
  induction l with
  | nil => rfl
  | cons s l ih => simpa using ih

/-- Result component of the trace fold, for any starting trace and log
accumulator. -/
theorem getLogsChunkedT_foldl_ok {Log : Type}
    (g : ℤ → ℤ → ℕ → Except String (List Log)) (toBlock : ℤ) (l : List ℤ) :
    ∀ (acc : List (ℤ × ℤ)) (logs : List Log),
    (l.foldl
      (fun (acc : List (ℤ × ℤ) × Except String (List Log)) s =>
        match acc.2 with
        | .error _ => acc
        | .ok logs =>
          let e := subRangeEnd toBlock s
          match attemptLoop (fun attempt => g s e attempt) with
          | .ok chunk => (acc.1 ++ [(s, e)], .ok (logs ++ chunk))
          | .error err => (acc.1 ++ [(s, e)], .error err))
      (acc, .ok logs)).2 =
    l.foldlM
      (fun logs s =>
        match attemptLoop (fun attempt => g s (subRangeEnd toBlock s) attempt) with
        | .ok chunk => Except.ok (logs ++ chunk)
        | .error e => Except.error e)
      logs := by
  induction l with
  | nil => intro acc logs; rfl
  | cons s l ih =>
      intro acc logs
      simp only [List.foldl_cons, List.foldlM_cons]
      cases h : attemptLoop (fun attempt => g s (subRangeEnd toBlock s) attempt) with
      | ok chunk => simpa [h] using ih (acc ++ [(s, subRangeEnd toBlock s)]) (logs ++ chunk)
      | error e =>
          simp only [List.foldl_cons, h, getLogsChunkedT_foldl_error]
          rfl

/-- The instrumented chunked fetch computes the same result as
`getLogsChunked`. -/
theorem getLogsChunkedT_snd {Log : Type}
    (g : ℤ → ℤ → ℕ → Except String (List Log)) (fromBlock toBlock : ℤ) :
    (getLogsChunkedT g fromBlock toBlock).2 = getLogsChunked g fromBlock toBlock := by
  unfold getLogsChunkedT getLogsChunked
  exact getLogsChunkedT_foldl_ok g toBlock (chunkStarts fromBlock toBlock) [] []

/-! ## Helper lemmas: deploy-block binary search -/

/-- The binary-search loop always returns a non-negative block. -/
theorem deployLoop_nonneg (getCode : ℤ → Bool) (lo hi found : ℤ) :
    0 ≤ deployLoop getCode lo hi found := by
  induction lo, hi, found using deployLoop.induct getCode with
  | case1 lo hi found h mid hc ih =>
      rw [deployLoop]
      simp only [if_pos h, show getCode (deployMid lo hi) = true from hc, if_true]
      exact ih
  | case2 lo hi found h mid hc ih =>
      rw [deployLoop]
      simp only [if_pos h,
        if_neg (show ¬getCode (deployMid lo hi) = true from hc)]
      exact ih
  | case3 lo hi found h => rw [deployLoop]; simp [h]

/-- Binary-search invariant for the synthetic boundary-at-1000 oracle: as
long as everything below `lo` lacks code, `found` has code, and the true
boundary is at `found` or still inside `[lo, hi]`, the loop lands exactly on
the boundary and returns `1000 - 5`. -/
theorem deployLoop_boundary (getCode : ℤ → Bool)
    (hc : ∀ b, getCode b = decide (1000 ≤ b)) :
    ∀ lo hi found : ℤ, lo ≤ 1000 → 1000 ≤ found →
      (found = 1000 ∨ 1000 ≤ hi) → deployLoop getCode lo hi found = 995 := by
  intro lo hi found
  induction lo, hi, found using deployLoop.induct getCode with
  | case1 lo hi found h mid hcode ih =>
      intro h1 h2 _h3
      have hm : 1000 ≤ deployMid lo hi := by
        have := hc (deployMid lo hi)
        rw [show getCode (deployMid lo hi) = true from hcode] at this
        exact of_decide_eq_true this.symm
      rw [deployLoop]
      simp only [if_pos h, show getCode (deployMid lo hi) = true from hcode, if_true]
      exact ih h1 hm (by omega)
  | case2 lo hi found h mid hcode ih =>
      intro h1 h2 h3
      have hm : ¬1000 ≤ deployMid lo hi := by
        intro hcontra
        exact hcode (by rw [hc]; exact decide_eq_true hcontra)
      rw [deployLoop]
      simp only [if_pos h,
        if_neg (show ¬getCode (deployMid lo hi) = true from hcode)]
      exact ih (by omega) h2 h3
  | case3 lo hi found h =>
      intro h1 h2 h3
      rw [deployLoop]
      simp only [if_neg h]
      omega

/-- When every attempt on a sub-range fails, the retry loop raises the last
attempt's error. -/
theorem attemptLoop_fail {α : Type} (f : ℕ → Except String α)
    (e0 e1 e : String) (h0 : f 0 = .error e0) (h1 : f 1 = .error e1)
    (h2 : f 2 = .error e) : attemptLoop f = .error e := by
  unfold attemptLoop
  rw [h0, h1, h2]

/-- If the first failing sub-range (all earlier ones succeed) raises `e`, the
whole chunked fold raises `e`. -/
theorem foldlM_first_fail {Log : Type}
    (g : ℤ → ℤ → ℕ → Except String (List Log)) (toBlock : ℤ) :
    ∀ (l : List ℤ) (k : ℕ) (s : ℤ) (e : String) (acc : List Log),
      l[k]? = some s →
      (∀ j, j < k → ∀ s', l[j]? = some s' →
        ∃ L, attemptLoop (fun a => g s' (subRangeEnd toBlock s') a) = .ok L) →
      attemptLoop (fun a => g s (subRangeEnd toBlock s) a) = .error e →
      l.foldlM
        (fun logs s =>
          match attemptLoop (fun attempt => g s (subRangeEnd toBlock s) attempt) with
          | .ok chunk => Except.ok (logs ++ chunk)
          | .error e => Except.error e)
        acc = .error e := by
  intro l
  induction l with
  | nil => intro k s e acc hk _ _; simp at hk
  | cons s0 l ih =>
      intro k s e acc hk hpre hfail
      cases k with
      | zero =>
          simp only [List.getElem?_cons_zero, Option.some.injEq] at hk
          subst hk
          rw [List.foldlM_cons, hfail]
          rfl
      | succ k =>
          simp only [List.getElem?_cons_succ] at hk
          rcases hpre 0 (Nat.succ_pos k) s0 (by simp) with ⟨L, hL⟩
          rw [List.foldlM_cons, hL]
          exact ih k s e (acc ++ L) hk
            (fun j hj s' hs' => hpre (j + 1) (by omega) s' (by simpa using hs'))
            hfail

/-- A failed buy or sell chunked fetch fails the whole combine step with the
same error. -/
theorem fetchCombined_error (env : ChainEnv) (fromB toB : ℤ) (e : String)
    (h : getLogsChunked (env.getLogs .buy) fromB toB = .error e ∨
      ((∃ L, getLogsChunked (env.getLogs .buy) fromB toB = .ok L) ∧
        getLogsChunked (env.getLogs .sell) fromB toB = .error e)) :
    fetchCombined env fromB toB = .error e := by
  unfold fetchCombined
  rcases h with h | ⟨⟨L, hL⟩, h⟩
  · rw [h]
    rfl
  · rw [hL, h]
    rfl

/-- A successful combine step runs the cycle to completion. -/
theorem runCycle_ok (env : ChainEnv) (st : HookState) (c : List CurveTrade)
    (h : fetchCombined env (scanRange env st).1 (scanRange env st).2 = .ok c) :
    runCycle env st =
      .ok (mergeTrades st.points (applyTimestamps env.getBlock c), env.latest) := by
  unfold runCycle
  rw [h]
  rfl

/-- A failed combine step fails the cycle with the same error. -/
theorem runCycle_error (env : ChainEnv) (st : HookState) (e : String)
    (h : fetchCombined env (scanRange env st).1 (scanRange env st).2 = .error e) :
    runCycle env st = .error e := by
  unfold runCycle
  rw [h]
  rfl

/-- Explicit successful-cycle state transition. -/
theorem fetchTradesCycle_ok (env : ChainEnv) (st : HookState)
    (c : List CurveTrade)
    (h : fetchCombined env (scanRange env st).1 (scanRange env st).2 = .ok c) :
    fetchTradesCycle env st =
      { points := mergeTrades st.points (applyTimestamps env.getBlock c),
        loading := false, error := none, cursor := some env.latest,
        deploy := some (resolveDeploy env st) } := by
  unfold fetchTradesCycle
  rw [runCycle_ok env st c h]

/-! ## Claim C6: a failed sub-range aborts the cycle without partial data -/

/-- C6: if every one of the 3 retry attempts fails on the first unresolved
sub-range, the chunked fetch raises that sub-range's (last attempt's) error;
and a cycle whose buy or sell chunked fetch fails publishes no partial data:
the points and the cursor are exactly what they were, with the error
surfaced. -/
theorem c6_failed_fetch_preserves_state :
    (∀ {Log : Type} (g : ℤ → ℤ → ℕ → Except String (List Log))
        (fromB toB : ℤ) (k : ℕ) (s : ℤ) (e0 e1 e : String),
        (chunkStarts fromB toB)[k]? = some s →
        (∀ j, j < k → ∀ s', (chunkStarts fromB toB)[j]? = some s' →
          ∃ L, attemptLoop (fun a => g s' (subRangeEnd toB s') a) = .ok L) →
        g s (subRangeEnd toB s) 0 = .error e0 →
        g s (subRangeEnd toB s) 1 = .error e1 →
        g s (subRangeEnd toB s) 2 = .error e →
        getLogsChunked g fromB toB = .error e) ∧
      ∀ (env : ChainEnv) (st : HookState) (e : String),
        (getLogsChunked (env.getLogs .buy) (scanRange env st).1
            (scanRange env st).2 = .error e ∨
          ((∃ L, getLogsChunked (env.getLogs .buy) (scanRange env st).1
              (scanRange env st).2 = .ok L) ∧
            getLogsChunked (env.getLogs .sell) (scanRange env st).1
              (scanRange env st).2 = .error e)) →
        (fetchTradesCycle env st).points = st.points ∧
          (fetchTradesCycle env st).cursor = st.cursor ∧
          (fetchTradesCycle env st).error = some (toMsg e) := by
  constructor
  · intro Log g fromB toB k s e0 e1 e hk hpre h0 h1 h2
    unfold getLogsChunked
    exact foldlM_first_fail g toB (chunkStarts fromB toB) k s e [] hk hpre
      (attemptLoop_fail _ e0 e1 e h0 h1 h2)
  · intro env st e h
    have hfc := fetchCombined_error env (scanRange env st).1 (scanRange env st).2 e h
    have hrc := runCycle_error env st e hfc
    unfold fetchTradesCycle
    rw [hrc]
    exact ⟨rfl, rfl, rfl⟩

/-- Witness for C6: an environment whose log fetches always fail leaves the
state's points and cursor untouched and surfaces the error. -/
theorem c6_witness :
    (getLogsChunked
        ((ChainEnv.mk "c" 3 (fun _ => true)
          (fun _ _ _ _ => .error "boom") (fun _ => none)).getLogs .buy)
        (scanRange
          (ChainEnv.mk "c" 3 (fun _ => true)
            (fun _ _ _ _ => .error "boom") (fun _ => none))
          (HookState.mk [] true none none (some 0))).1
        (scanRange
          (ChainEnv.mk "c" 3 (fun _ => true)
            (fun _ _ _ _ => .error "boom") (fun _ => none))
          (HookState.mk [] true none none (some 0))).2 = .error "boom") ∧
      (fetchTradesCycle
          (ChainEnv.mk "c" 3 (fun _ => true)
            (fun _ _ _ _ => .error "boom") (fun _ => none))
          (HookState.mk [] true none none (some 0))).points = [] ∧
        (fetchTradesCycle
            (ChainEnv.mk "c" 3 (fun _ => true)
              (fun _ _ _ _ => .error "boom") (fun _ => none))
            (HookState.mk [] true none none (some 0))).cursor = none ∧
          (fetchTradesCycle
              (ChainEnv.mk "c" 3 (fun _ => true)
                (fun _ _ _ _ => .error "boom") (fun _ => none))
              (HookState.mk [] true none none (some 0))).error =
            some (toMsg "boom") := by
  have hcs : chunkStarts 0 3 = [0] := by
    rw [chunkStarts]; norm_num [LOG_CHUNK_SIZE]
    rw [chunkStarts]; norm_num
  have hsr : scanRange
      (ChainEnv.mk "c" 3 (fun _ => true)
        (fun _ _ _ _ => .error "boom") (fun _ => none))
      (HookState.mk [] true none none (some 0)) = (0, 3) := rfl
  have hfail : getLogsChunked
      ((ChainEnv.mk "c" 3 (fun _ => true)
        (fun _ _ _ _ => .error "boom") (fun _ => none)).getLogs .buy)
      0 3 = .error "boom" :=
    c6_failed_fetch_preserves_state.1 _ 0 3 0 0 "boom" "boom" "boom"
      (by rw [hcs]; rfl) (fun j hj => by omega) rfl rfl rfl
  refine ⟨by rw [hsr]; exact hfail, ?_⟩
  exact c6_failed_fetch_preserves_state.2 _ _ "boom"
    (Or.inl (by rw [hsr]; exact hfail))

/-! ## Helper lemmas: timestamp resolution -/

/-- JS `Set` dedup: membership is preserved. -/
theorem jsDedup_mem_aux {α : Type} [DecidableEq α] :
    ∀ (xs acc : List α) (b : α),
      b ∈ xs.foldl (fun acc x => if x ∈ acc then acc else acc ++ [x]) acc ↔
        b ∈ acc ∨ b ∈ xs := by
  intro xs
  induction xs with
  | nil => intro acc b; simp
  | cons x xs ih =>
      intro acc b
      rw [List.foldl_cons]
      by_cases hx : x ∈ acc
      · rw [if_pos hx, ih]
        constructor
        · rintro (h | h)
          · exact Or.inl h
          · exact Or.inr (by simp [h])
        · rintro (h | h)
          · exact Or.inl h
          · rcases List.mem_cons.mp h with rfl | h
            · exact Or.inl hx
            · exact Or.inr h
      · rw [if_neg hx, ih]
        constructor
        · rintro (h | h)
          · rcases List.mem_append.mp h with h | h
            · exact Or.inl h
            · simp only [List.mem_singleton] at h
              exact Or.inr (by simp [h])
          · exact Or.inr (by simp [h])
        · rintro (h | h)
          · exact Or.inl (List.mem_append.mpr (Or.inl h))
          · rcases List.mem_cons.mp h with rfl | h
            · exact Or.inl (by simp)
            · exact Or.inr h

/-- JS `Set` dedup: the result is duplicate-free. -/
theorem jsDedup_nodup_aux {α : Type} [DecidableEq α] :
    ∀ (xs acc : List α), acc.Nodup →
      (xs.foldl (fun acc x => if x ∈ acc then acc else acc ++ [x]) acc).Nodup := by
  intro xs
  induction xs with
  | nil => intro acc h; exact h
  | cons x xs ih =>
      intro acc h
      rw [List.foldl_cons]
      by_cases hx : x ∈ acc
      · rw [if_pos hx]
        exact ih acc h
      · rw [if_neg hx]
        exact ih _ (by simp [List.nodup_append, h, hx])

theorem jsDedup_mem {α : Type} [DecidableEq α] (xs : List α) (b : α) :
    b ∈ jsDedup xs ↔ b ∈ xs := by
  unfold jsDedup
  rw [jsDedup_mem_aux]
  simp

theorem jsDedup_nodup {α : Type} [DecidableEq α] (xs : List α) :
    (jsDedup xs).Nodup :=
  jsDedup_nodup_aux xs [] (by simp)

/-- The block-timestamp map never holds an entry for a block whose lookup
failed or returned the falsy timestamp 0. -/
theorem buildBlockTs_get_none (getBlock : ℤ → Option ℤ) (bn : ℤ)
    (hfail : getBlock bn = none ∨ getBlock bn = some 0) :
    ∀ (uniq : List ℤ) (m : List (ℤ × ℤ)), jsMapGet m bn = none →
      jsMapGet (uniq.foldl (fun m bn' =>
        match getBlock bn' with
        | some ts => if ts ≠ 0 then jsMapSet m bn' ts else m
        | none => m) m) bn = none := by
  intro uniq
  induction uniq with
  | nil => intro m hm; exact hm
  | cons bn' uniq ih =>
      intro m hm
      rw [List.foldl_cons]
      cases hget : getBlock bn' with
      | none => exact ih m hm
      | some ts =>
          apply ih
          show jsMapGet (if ts ≠ 0 then jsMapSet m bn' ts else m) bn = none
          by_cases hts : ts ≠ 0
          · rw [if_pos hts, jsMapGet_set]
            by_cases hbn : bn = bn'
            · subst hbn
              rcases hfail with hfail | hfail <;> rw [hfail] at hget
              · exact absurd hget (by simp)
              · exact absurd (Option.some.inj hget).symm hts
            · rw [if_neg hbn]
              exact hm
          · rw [if_neg hts]
            exact hm

/-! ## Claim C7: per-cycle timestamp resolution -/

/-- C7 counterexample: there is no cross-cycle block-timestamp cache — a
block resolved in one refresh cycle is queried again by the next cycle of
the same environment (the lookup trace contains block 5 in both cycles). -/
theorem c7_counterexample :
    cycleQueries
        (ChainEnv.mk "c" 3 (fun _ => true)
          (fun side _ _ _ => match side with
            | .buy => .ok [⟨"h", 5, some 0, some ⟨"w", 1, 1⟩⟩]
            | .sell => .ok [])
          (fun _ => some 99))
        (HookState.mk [] true none none (some 0)) = [5] ∧
      cycleQueries
          (ChainEnv.mk "c" 3 (fun _ => true)
            (fun side _ _ _ => match side with
              | .buy => .ok [⟨"h", 5, some 0, some ⟨"w", 1, 1⟩⟩]
              | .sell => .ok [])
            (fun _ => some 99))
          (fetchTradesCycle
            (ChainEnv.mk "c" 3 (fun _ => true)
              (fun side _ _ _ => match side with
                | .buy => .ok [⟨"h", 5, some 0, some ⟨"w", 1, 1⟩⟩]
                | .sell => .ok [])
              (fun _ => some 99))
            (HookState.mk [] true none none (some 0))) = [5] := by
  have hcs : chunkStarts 0 3 = [0] := by
    rw [chunkStarts]; norm_num [LOG_CHUNK_SIZE]
    rw [chunkStarts]; norm_num
  have hfc : fetchCombined
      (ChainEnv.mk "c" 3 (fun _ => true)
        (fun side _ _ _ => match side with
          | .buy => .ok [⟨"h", 5, some 0, some ⟨"w", 1, 1⟩⟩]
          | .sell => .ok [])
        (fun _ => some 99)) 0 3 =
      .ok ([⟨"h", 5, some 0, some ⟨"w", 1, 1⟩⟩].filterMap
        (parseTrade .buy "c")) := by
    unfold fetchCombined getLogsChunked
    rw [hcs]
    rfl
  constructor
  · show (match fetchCombined _ 0 3 with
      | .ok combined => jsDedup (combined.map (·.blockNumber))
      | .error _ => []) = [5]
    rw [hfc]
    rfl
  · rw [fetchTradesCycle_ok
      (ChainEnv.mk "c" 3 (fun _ => true)
        (fun side _ _ _ => match side with
          | .buy => .ok [⟨"h", 5, some 0, some ⟨"w", 1, 1⟩⟩]
          | .sell => .ok [])
        (fun _ => some 99))
      (HookState.mk [] true none none (some 0))
      ([(⟨"h", 5, some 0, some ⟨"w", 1, 1⟩⟩ : RawLog)].filterMap
        (parseTrade .buy "c"))
      hfc]
    show (match fetchCombined _ 0 3 with
      | .ok combined => jsDedup (combined.map (·.blockNumber))
      | .error _ => []) = [5]
    rw [hfc]
    rfl

/-- C7 (amended): within one refresh cycle the fetched trades' block numbers
are deduplicated and each distinct block is queried exactly once (the query
list is duplicate-free and covers exactly the trades' blocks); a failed or
falsy lookup leaves the affected trades' timestamp 0 while the trades are
kept in the output.  (There is no cross-cycle cache: see the
counterexample.) -/
theorem c7_timestamp_resolution :
    (∀ (env : ChainEnv) (st : HookState),
        (cycleQueries env st).Nodup ∧
          ∀ (c : List CurveTrade),
            fetchCombined env (scanRange env st).1 (scanRange env st).2 = .ok c →
            ∀ b : ℤ, b ∈ cycleQueries env st ↔ b ∈ c.map (·.blockNumber)) ∧
      ∀ (getBlock : ℤ → Option ℤ) (combined : List CurveTrade),
        (applyTimestamps getBlock combined).length = combined.length ∧
          ∀ t ∈ combined,
            (getBlock t.blockNumber = none ∨ getBlock t.blockNumber = some 0) →
            { t with timestamp := 0 } ∈ applyTimestamps getBlock combined := by
  constructor
  · intro env st
    constructor
    · unfold cycleQueries
      cases fetchCombined env (scanRange env st).1 (scanRange env st).2 with
      | ok c => exact jsDedup_nodup _
      | error e => simp
    · intro c hc b
      unfold cycleQueries
      rw [hc]
      exact jsDedup_mem _ b
  · intro getBlock combined
    constructor
    · unfold applyTimestamps
      simp
    · intro t ht hfail
      unfold applyTimestamps
      simp only []
      refine List.mem_map.mpr ⟨t, ht, ?_⟩
      rw [show jsMapGet (buildBlockTs getBlock
          (jsDedup (combined.map (·.blockNumber)))) t.blockNumber = none from
        buildBlockTs_get_none getBlock t.blockNumber hfail _ [] rfl]
      rfl

/-- Witness for C7 at a concrete cycle and a concrete failing lookup. -/
theorem c7_witness :
    (cycleQueries
        (ChainEnv.mk "c" 3 (fun _ => true) (fun _ _ _ _ => .error "down")
          (fun _ => none))
        (HookState.mk [] true none none (some 0))).Nodup ∧
      (applyTimestamps (fun _ => none)
          [⟨.buy, "w", "c", 1, 1, 1, 7, "h", 5, some 0⟩]).length = 1 ∧
        (⟨.buy, "w", "c", 1, 1, 1, 0, "h", 5, some 0⟩ : CurveTrade) ∈
          applyTimestamps (fun _ => none)
            [⟨.buy, "w", "c", 1, 1, 1, 7, "h", 5, some 0⟩] :=
  ⟨((c7_timestamp_resolution.1 _ _).1),
   (c7_timestamp_resolution.2 (fun _ => none) _).1,
   (c7_timestamp_resolution.2 (fun _ => none)
      [⟨.buy, "w", "c", 1, 1, 1, 7, "h", 5, some 0⟩]).2
      ⟨.buy, "w", "c", 1, 1, 1, 7, "h", 5, some 0⟩ (by simp) (Or.inl rfl)⟩

/-! ## Helper lemmas: incremental update refines the full rebuild (C1) -/

section MapLemmas3

variable {κ α : Type} [DecidableEq κ]

omit [DecidableEq κ] in
/-- Strictly increasing keys are duplicate-free. -/
theorem nodup_of_chain_lt {l : List κ} [Preorder κ]
    (h : l.Chain' (· < ·)) : l.Nodup :=
  (List.chain'_iff_pairwise.mp h).imp ne_of_lt

/-- With strictly increasing keys, every key is at most the last. -/
theorem chain_lt_le_getLast {l : List ℤ} (h : l.Chain' (· < ·)) (x : ℤ)
    (hx : l.getLast? = some x) : ∀ y ∈ l, y ≤ x := by
  intro y hy
  have hdecomp := List.dropLast_append_getLast? x (Option.mem_def.mpr hx)
  have hp : l.Pairwise (· < ·) := List.chain'_iff_pairwise.mp h
  rw [← hdecomp] at hp hy
  rcases List.mem_append.mp hy with hy | hy
  · exact le_of_lt ((List.pairwise_append.mp hp).2.2 y hy x (by simp))
  · simp only [List.mem_singleton] at hy
    subst hy
    exact le_refl y

/-- Lookup of the last entry's key in a nodup-key map yields its value. -/
theorem jsMapGet_getLast (m : List (κ × α)) (hn : (m.map (·.1)).Nodup)
    (k : κ) (c : α) (h : m.getLast? = some (k, c)) :
    jsMapGet m k = some c := by
  rw [jsMapGet_eq_some_iff m hn]
  have hdecomp := List.dropLast_append_getLast? (k, c) (Option.mem_def.mpr h)
  rw [← hdecomp]
  simp

/-- Setting the last entry's key replaces exactly the last entry. -/
theorem jsMapSet_getLast (m : List (κ × α)) (hn : (m.map (·.1)).Nodup)
    (k : κ) (c : α) (h : m.getLast? = some (k, c)) (v : α) :
    jsMapSet m k v = m.dropLast ++ [(k, v)] := by
  have hdecomp := List.dropLast_append_getLast? (k, c) (Option.mem_def.mpr h)
  have hmem : (k, c) ∈ m := by
    rw [← hdecomp]
    simp
  have hany : m.any (fun e => e.1 = k) := by
    rw [any_keys_iff]
    exact List.mem_map.mpr ⟨(k, c), hmem, rfl⟩
  unfold jsMapSet
  rw [if_pos hany]
  conv_lhs => rw [← hdecomp]
  rw [List.map_append]
  congr 1
  · -- entries before the last have keys ≠ k
    have hkeys : (m.dropLast.map (·.1) ++ [k]).Nodup := by
      have : m.map (·.1) = m.dropLast.map (·.1) ++ [k] := by
        conv_lhs => rw [← hdecomp]
        rw [List.map_append]
        rfl
      rwa [this] at hn
    rw [List.nodup_append] at hkeys
    refine List.map_congr_left ?_ |>.trans (List.map_id _)
    intro e he
    have : e.1 ≠ k := by
      intro hek
      exact hkeys.2.2 (List.mem_map.mpr ⟨e, he, hek⟩) (by simp)
    simp [this]
  · simp

end MapLemmas3

/-- Unfolding one step of the candle/volume map fold. -/
theorem tvFold_append (colors : Colors) (i : ℤ) (ts : List TvTrade)
    (tr : TvTrade) :
    tvFold colors i (ts ++ [tr]) =
      tvStep colors i (tvFold colors i ts) tr := by
  unfold tvFold
  rw [List.foldl_append]
  rfl

/-- Unfolding one step of the incremental-update fold. -/
theorem applySeq_append_single (colors : Colors) (i : ℤ)
    (init : Option Candle × Option VolumeBar) (ts : List TvTrade)
    (tr : TvTrade) :
    applySeq colors i init (ts ++ [tr]) =
      (some (applyTradeToLastBars tr i (applySeq colors i init ts).1
          (applySeq colors i init ts).2 colors).1,
        some (applyTradeToLastBars tr i (applySeq colors i init ts).1
          (applySeq colors i init ts).2 colors).2) := by
  unfold applySeq
  rw [List.foldl_append]
  rfl

/-- Splitting the incremental-update fold over an append. -/
theorem applySeq_append (colors : Colors) (i : ℤ)
    (init : Option Candle × Option VolumeBar) (ts us : List TvTrade) :
    applySeq colors i init (ts ++ us) =
      applySeq colors i (applySeq colors i init ts) us := by
  unfold applySeq
  rw [List.foldl_append]

/-- Step shape when the trade's bucket is present in both maps. -/
theorem tvStep_hit (colors : Colors) (i : ℤ)
    (st : List (ℤ × Candle) × List (ℤ × VolumeBar)) (tr : TvTrade)
    (c : Candle) (v : VolumeBar)
    (hc : jsMapGet st.1 (bucketSec tr.timestamp i) = some c)
    (hv : jsMapGet st.2 (bucketSec tr.timestamp i) = some v) :
    tvStep colors i st tr =
      (jsMapSet st.1 (bucketSec tr.timestamp i)
        { c with high := max c.high tr.price, low := min c.low tr.price,
                 close := tr.price },
       jsMapSet st.2 (bucketSec tr.timestamp i)
        { v with value := v.value + tr.volume }) := by
  unfold tvStep
  simp only [hc, hv]

/-- Step shape when the trade's bucket is fresh in both maps. -/
theorem tvStep_miss (colors : Colors) (i : ℤ)
    (st : List (ℤ × Candle) × List (ℤ × VolumeBar)) (tr : TvTrade)
    (hc : jsMapGet st.1 (bucketSec tr.timestamp i) = none)
    (hv : jsMapGet st.2 (bucketSec tr.timestamp i) = none) :
    tvStep colors i st tr =
      (jsMapSet st.1 (bucketSec tr.timestamp i)
        ⟨bucketSec tr.timestamp i, tr.price, tr.price, tr.price, tr.price⟩,
       jsMapSet st.2 (bucketSec tr.timestamp i)
        ⟨bucketSec tr.timestamp i, tr.volume,
          some (sideColor colors tr.side)⟩) := by
  unfold tvStep
  simp only [hc, hv]

/-- Incremental step when the last bar exists and the bucket matches. -/
theorem applyTrade_same (tr : TvTrade) (i : ℤ) (c : Candle)
    (lastVol : Option VolumeBar) (colors : Colors)
    (h : c.time = bucketSec tr.timestamp i) :
    applyTradeToLastBars tr i (some c) lastVol colors =
      ({ c with high := max c.high tr.price, low := min c.low tr.price,
                close := tr.price },
       ⟨bucketSec tr.timestamp i,
        (lastVol.map (·.value)).getD 0 + tr.volume,
        some ((lastVol.bind (·.color)).getD (sideColor colors tr.side))⟩) := by
  unfold applyTradeToLastBars
  simp [h]

/-- Incremental step when the last bar exists and the bucket differs. -/
theorem applyTrade_newBucket (tr : TvTrade) (i : ℤ) (c : Candle)
    (lastVol : Option VolumeBar) (colors : Colors)
    (h : c.time ≠ bucketSec tr.timestamp i) :
    applyTradeToLastBars tr i (some c) lastVol colors =
      (⟨bucketSec tr.timestamp i, tr.price, tr.price, tr.price, tr.price⟩,
       ⟨bucketSec tr.timestamp i, tr.volume,
        some (sideColor colors tr.side)⟩) := by
  unfold applyTradeToLastBars
  simp [h]

/-- The master invariant of the candle/volume map fold over a sorted trade
list: keys are strictly increasing, values carry their key as their time,
volume bars always carry a color, the candle and volume key sequences
coincide, the last map entries coincide with the incremental
`applyTradeToLastBars` fold from an empty chart, and the last key is the
bucket of the last trade. -/
theorem tvFold_invariant (colors : Colors) (i : ℤ) (hi : 0 < i) :
    ∀ ts : List TvTrade, ts.Sorted tvLe →
      ((tvFold colors i ts).1.map (·.1)).Chain' (· < ·) ∧
        (∀ e ∈ (tvFold colors i ts).1, (e.2 : Candle).time = e.1) ∧
        (tvFold colors i ts).2.map (·.1) = (tvFold colors i ts).1.map (·.1) ∧
        (∀ e ∈ (tvFold colors i ts).2, (e.2 : VolumeBar).time = e.1) ∧
        (∀ e ∈ (tvFold colors i ts).2, ((e.2 : VolumeBar).color).isSome) ∧
        ((tvFold colors i ts).1.getLast?).map (·.2) =
          (applySeq colors i (none, none) ts).1 ∧
        ((tvFold colors i ts).2.getLast?).map (·.2) =
          (applySeq colors i (none, none) ts).2 ∧
        ((tvFold colors i ts).1.getLast?).map (·.1) =
          (ts.getLast?).map (fun tr => bucketSec tr.timestamp i) := by
  intro ts
  induction ts using List.reverseRecOn with
  | nil => simp [tvFold, applySeq]
  | append_singleton ts tr ih =>
      intro hsort
      have hsplit := List.pairwise_append.mp hsort
      have hsort' : ts.Sorted tvLe := hsplit.1
      have hle : ∀ x ∈ ts, x.timestamp ≤ tr.timestamp := fun x hx =>
        hsplit.2.2 x hx tr (by simp)
      obtain ⟨I1, I2, I3, I4, I8, I5, I6, I7⟩ := ih hsort'
      rw [tvFold_append, applySeq_append_single]
      cases hlast : ts.getLast? with
      | none =>
          -- ts = []; the fold state is empty
          rw [List.getLast?_eq_none_iff] at hlast
          subst hlast
          have hempty : tvFold colors i [] = ([], []) := rfl
          rw [hempty, tvStep_miss colors i ([], []) tr (by rfl) (by rfl)]
          unfold applySeq
          simp only [List.foldl_nil]
          unfold applyTradeToLastBars
          simp [jsMapSet, jsMapGet_nil]
      | some tr0 =>
          have htr0 : tr0 ∈ ts := by
            rcases List.mem_getLast?_eq_getLast (Option.mem_def.mpr hlast)
              with ⟨hne, heq⟩
            rw [heq]
            exact List.getLast_mem hne
          have hk0k : bucketSec tr0.timestamp i ≤ bucketSec tr.timestamp i :=
            bucketSec_mono hi (hle tr0 htr0)
          cases hstl : (tvFold colors i ts).1.getLast? with
          | none =>
              rw [hstl, hlast] at I7
              simp at I7
          | some e0 =>
              obtain ⟨k0, c0⟩ := e0
              have hk0 : k0 = bucketSec tr0.timestamp i := by
                rw [hstl, hlast] at I7
                simpa using I7
              have he0mem : (k0, c0) ∈ (tvFold colors i ts).1 := by
                rcases List.mem_getLast?_eq_getLast (Option.mem_def.mpr hstl)
                  with ⟨hne, heq⟩
                rw [heq]
                exact List.getLast_mem hne
              have hc0t : c0.time = k0 := I2 (k0, c0) he0mem
              have hnd : ((tvFold colors i ts).1.map (·.1)).Nodup :=
                nodup_of_chain_lt I1
              have hndv : ((tvFold colors i ts).2.map (·.1)).Nodup := by
                rw [I3]
                exact hnd
              have hklast : ((tvFold colors i ts).1.map (·.1)).getLast? =
                  some k0 := by
                rw [List.getLast?_map, hstl]
                rfl
              cases hstv : (tvFold colors i ts).2.getLast? with
              | none =>
                  have : ((tvFold colors i ts).2.map (·.1)).getLast? = none := by
                    rw [List.getLast?_map, hstv]
                    rfl
                  rw [I3, hklast] at this
                  simp at this
              | some ev0 =>
                  obtain ⟨kv, v0⟩ := ev0
                  have hkv : kv = k0 := by
                    have : ((tvFold colors i ts).2.map (·.1)).getLast? =
                        some kv := by
                      rw [List.getLast?_map, hstv]
                      rfl
                    rw [I3, hklast] at this
                    simpa using this.symm
                  rw [hkv] at hstv
                  have hev0mem : (k0, v0) ∈ (tvFold colors i ts).2 := by
                    rcases List.mem_getLast?_eq_getLast
                      (Option.mem_def.mpr hstv) with ⟨hne, heq⟩
                    rw [heq]
                    exact List.getLast_mem hne
                  have hv0t : v0.time = k0 := I4 (k0, v0) hev0mem
                  have hv0c : v0.color.isSome := I8 (k0, v0) hev0mem
                  by_cases hkk : bucketSec tr.timestamp i = k0
                  · -- same bucket: update the last entry of both maps in place
                    have hgetc : jsMapGet (tvFold colors i ts).1
                        (bucketSec tr.timestamp i) = some c0 := by
                      rw [hkk]
                      exact jsMapGet_getLast _ hnd k0 c0 hstl
                    have hgetv : jsMapGet (tvFold colors i ts).2
                        (bucketSec tr.timestamp i) = some v0 := by
                      rw [hkk]
                      exact jsMapGet_getLast _ hndv k0 v0 hstv
                    rw [tvStep_hit colors i _ tr c0 v0 hgetc hgetv]
                    have hsetc := jsMapSet_getLast (tvFold colors i ts).1 hnd
                      k0 c0 hstl
                      { c0 with high := max c0.high tr.price,
                                low := min c0.low tr.price, close := tr.price }
                    have hsetv := jsMapSet_getLast (tvFold colors i ts).2 hndv
                      k0 v0 hstv { v0 with value := v0.value + tr.volume }
                    rw [hkk, hsetc, hsetv]
                    have hdecc := List.dropLast_append_getLast? (k0, c0)
                      (Option.mem_def.mpr hstl)
                    have hdecv := List.dropLast_append_getLast? (k0, v0)
                      (Option.mem_def.mpr hstv)
                    have hkeysc : ((tvFold colors i ts).1.dropLast.map (·.1) ++
                        [k0]) = (tvFold colors i ts).1.map (·.1) := by
                      conv_rhs => rw [← hdecc]
                      rw [List.map_append]
                      rfl
                    have hkeysv : ((tvFold colors i ts).2.dropLast.map (·.1) ++
                        [k0]) = (tvFold colors i ts).2.map (·.1) := by
                      conv_rhs => rw [← hdecv]
                      rw [List.map_append]
                      rfl
                    refine ⟨?_, ?_, ?_, ?_, ?_, ?_, ?_, ?_⟩
                    · rw [List.map_append]
                      show ((tvFold colors i ts).1.dropLast.map (·.1) ++ [k0]).Chain' _
                      rw [hkeysc]
                      exact I1
                    · intro e he
                      rcases List.mem_append.mp he with he | he
                      · exact I2 e (by rw [← hdecc]; exact List.mem_append.mpr (Or.inl he))
                      · simp only [List.mem_singleton] at he
                        subst he
                        simpa using hc0t
                    · rw [List.map_append, List.map_append]
                      show (tvFold colors i ts).2.dropLast.map (·.1) ++ [k0] =
                        (tvFold colors i ts).1.dropLast.map (·.1) ++ [k0]
                      rw [hkeysc, hkeysv, I3]
                    · intro e he
                      rcases List.mem_append.mp he with he | he
                      · exact I4 e (by rw [← hdecv]; exact List.mem_append.mpr (Or.inl he))
                      · simp only [List.mem_singleton] at he
                        subst he
                        simpa using hv0t
                    · intro e he
                      rcases List.mem_append.mp he with he | he
                      · exact I8 e (by rw [← hdecv]; exact List.mem_append.mpr (Or.inl he))
                      · simp only [List.mem_singleton] at he
                        subst he
                        simpa using hv0c
                    · rw [List.getLast?_concat, ← I5, ← I6, hstl, hstv]
                      simp only [Option.map_some']
                      rw [applyTrade_same tr i c0 (some v0) colors (by rw [hc0t, hkk])]
                    · rw [List.getLast?_concat, ← I5, ← I6, hstl, hstv]
                      simp only [Option.map_some']
                      rw [applyTrade_same tr i c0 (some v0) colors (by rw [hc0t, hkk])]
                      rcases Option.isSome_iff_exists.mp hv0c with ⟨cl, hcl⟩
                      show some ({ v0 with value := v0.value + tr.volume } : VolumeBar) =
                        some (⟨bucketSec tr.timestamp i,
                          ((some v0).map (·.value)).getD 0 + tr.volume,
                          some (((some v0).bind (·.color)).getD
                            (sideColor colors tr.side))⟩ : VolumeBar)
                      obtain ⟨vt, vv, vc⟩ := v0
                      simp only at hv0t
                      simp only at hcl
                      simp [hv0t, hkk, hcl]
                    · rw [List.getLast?_concat, List.getLast?_concat]
                      simp [hkk]
                  · -- new bucket: both maps get a fresh entry at the end
                    have hkgt : k0 < bucketSec tr.timestamp i :=
                      lt_of_le_of_ne (hk0 ▸ hk0k) (fun hh => hkk hh.symm)
                    have hnotin : bucketSec tr.timestamp i ∉
                        (tvFold colors i ts).1.map (·.1) := by
                      intro hmem
                      have := chain_lt_le_getLast I1 k0 hklast _ hmem
                      omega
                    have hnotinv : bucketSec tr.timestamp i ∉
                        (tvFold colors i ts).2.map (·.1) := by
                      rw [I3]
                      exact hnotin
                    have hgetc : jsMapGet (tvFold colors i ts).1
                        (bucketSec tr.timestamp i) = none := by
                      apply jsMapGet_none_of_not_any
                      intro hany
                      exact hnotin ((any_keys_iff _ _).mp hany)
                    have hgetv : jsMapGet (tvFold colors i ts).2
                        (bucketSec tr.timestamp i) = none := by
                      apply jsMapGet_none_of_not_any
                      intro hany
                      exact hnotinv ((any_keys_iff _ _).mp hany)
                    rw [tvStep_miss colors i _ tr hgetc hgetv]
                    rw [jsMapSet_absent _ _ _ hnotin, jsMapSet_absent _ _ _ hnotinv]
                    refine ⟨?_, ?_, ?_, ?_, ?_, ?_, ?_, ?_⟩
                    · rw [List.map_append]
                      rw [List.chain'_append]
                      refine ⟨I1, by simp, ?_⟩
                      intro x hx y hy
                      simp only [List.map_cons, List.map_nil, List.head?_cons,
                        Option.mem_def, Option.some.injEq] at hy
                      subst hy
                      have hxmem : x ∈ (tvFold colors i ts).1.map (·.1) := by
                        rcases List.mem_getLast?_eq_getLast
                          (Option.mem_def.mpr hx) with ⟨hne, heq⟩
                        rw [heq]
                        exact List.getLast_mem hne
                      have := chain_lt_le_getLast I1 k0 hklast x hxmem
                      omega
                    · intro e he
                      rcases List.mem_append.mp he with he | he
                      · exact I2 e he
                      · simp only [List.mem_singleton] at he
                        subst he
                        rfl
                    · rw [List.map_append, List.map_append, I3]
                      rfl
                    · intro e he
                      rcases List.mem_append.mp he with he | he
                      · exact I4 e he
                      · simp only [List.mem_singleton] at he
                        subst he
                        rfl
                    · intro e he
                      rcases List.mem_append.mp he with he | he
                      · exact I8 e he
                      · simp only [List.mem_singleton] at he
                        subst he
                        rfl
                    · rw [List.getLast?_concat, ← I5, ← I6, hstl, hstv]
                      simp only [Option.map_some']
                      rw [applyTrade_newBucket tr i c0 (some v0) colors
                        (by rw [hc0t]; exact fun hh => hkk hh.symm)]
                    · rw [List.getLast?_concat, ← I5, ← I6, hstl, hstv]
                      simp only [Option.map_some']
                      rw [applyTrade_newBucket tr i c0 (some v0) colors
                        (by rw [hc0t]; exact fun hh => hkk hh.symm)]
                    · rw [List.getLast?_concat, List.getLast?_concat]
                      rfl

/-- Re-injecting finite trades into the raw representation and filtering
again is the identity. -/
theorem filterTv_toRaw (ts : List TvTrade) :
    filterTv (ts.map TvTrade.toRaw) = ts := by
  induction ts with
  | nil => rfl
  | cons t ts ih =>
      show t :: filterTv (ts.map TvTrade.toRaw) = t :: ts
      rw [ih]

/-- On an already-sorted trade list the aggregation core's last candle and
last volume bar equal the incremental fold from an empty chart. -/
theorem tvCore_getLast (colors : Colors) (i : ℤ) (hi : 0 < i)
    (ts : List TvTrade) (hs : ts.Sorted tvLe) :
    (tvCore colors ts i).1.getLast? = (applySeq colors i (none, none) ts).1 ∧
      (tvCore colors ts i).2.getLast? = (applySeq colors i (none, none) ts).2 := by
  obtain ⟨I1, I2, I3, I4, _, I5, I6, _⟩ := tvFold_invariant colors i hi ts hs
  have hsc : ((tvFold colors i ts).1.map (·.2)).Sorted candleLe := by
    have hp : ((tvFold colors i ts).1.map (·.1)).Pairwise (· < ·) :=
      List.chain'_iff_pairwise.mp I1
    rw [List.pairwise_map] at hp
    show ((tvFold colors i ts).1.map (·.2)).Pairwise candleLe
    rw [List.pairwise_map]
    refine hp.imp_of_mem ?_
    intro a b ha hb hr
    show a.2.time ≤ b.2.time
    rw [I2 a ha, I2 b hb]
    exact le_of_lt hr
  have hsv : ((tvFold colors i ts).2.map (·.2)).Sorted volLe := by
    have hp : ((tvFold colors i ts).2.map (·.1)).Pairwise (· < ·) := by
      rw [I3]
      exact List.chain'_iff_pairwise.mp I1
    rw [List.pairwise_map] at hp
    show ((tvFold colors i ts).2.map (·.2)).Pairwise volLe
    rw [List.pairwise_map]
    refine hp.imp_of_mem ?_
    intro a b ha hb hr
    show a.2.time ≤ b.2.time
    rw [I4 a ha, I4 b hb]
    exact le_of_lt hr
  constructor
  · show (((tvFold colors i ts).1.map (·.2)).insertionSort candleLe).getLast? = _
    rw [List.Sorted.insertionSort_eq hsc, List.getLast?_map]
    exact I5
  · show (((tvFold colors i ts).2.map (·.2)).insertionSort volLe).getLast? = _
    rw [List.Sorted.insertionSort_eq hsv, List.getLast?_map]
    exact I6

/-- The full rebuild of a sorted trade list, read back at its last candle and
volume bar, equals the incremental fold from an empty chart. -/
theorem toCandlesAndVolume_getLast (colors : Colors) (i : ℤ) (hi : 0 < i)
    (ts : List TvTrade) (hs : ts.Sorted tvLe) :
    ((toCandlesAndVolume colors (ts.map TvTrade.toRaw) i).1.getLast?,
      (toCandlesAndVolume colors (ts.map TvTrade.toRaw) i).2.getLast?) =
      applySeq colors i (none, none) ts := by
  cases ts with
  | nil => rfl
  | cons t ts' =>
      have hcore := tvCore_getLast colors i hi (t :: ts') hs
      have hfe : (filterTv ((t :: ts').map TvTrade.toRaw)).insertionSort tvLe =
          t :: ts' := by
        rw [filterTv_toRaw]
        exact List.Sorted.insertionSort_eq hs
      unfold toCandlesAndVolume
      rw [if_neg (by simp), hfe]
      exact Prod.ext_iff.mpr ⟨hcore.1, hcore.2⟩

/-- C1: for every bucket width `i > 0` and every timestamp-sorted trade
history split as `pre ++ suf`, starting from the last candle and last volume
bar of a full build (`toCandlesAndVolume`) over the prefix `pre` and applying
each trade of `suf` in order via the incremental `applyTradeToLastBars`
yields exactly the last candle and last volume bar (hence the same final
bucketStart/open/high/low/close/volume fields) of a single full build over
the whole concatenated history `pre ++ suf`. -/
theorem c1_applyTrade_refines_build (colors : Colors) (i : ℤ) (hi : 0 < i)
    (pre suf : List TvTrade) (hs : (pre ++ suf).Sorted tvLe) :
    ((toCandlesAndVolume colors ((pre ++ suf).map TvTrade.toRaw) i).1.getLast?,
      (toCandlesAndVolume colors ((pre ++ suf).map TvTrade.toRaw) i).2.getLast?) =
      applySeq colors i
        ((toCandlesAndVolume colors (pre.map TvTrade.toRaw) i).1.getLast?,
          (toCandlesAndVolume colors (pre.map TvTrade.toRaw) i).2.getLast?)
        suf := by
  have hspre : pre.Sorted tvLe := (List.pairwise_append.mp hs).1
  rw [toCandlesAndVolume_getLast colors i hi pre hspre,
    toCandlesAndVolume_getLast colors i hi (pre ++ suf) hs,
    applySeq_append]

/-- Witness for C1: a one-trade prefix and a one-trade suffix at width 60,
with both hypotheses discharged concretely. -/
theorem c1_witness :
    (0 : ℤ) < 60 ∧
      (([(⟨10, 1, 2, some Side.buy⟩ : TvTrade)] ++
        [(⟨70, 2, 3, some Side.sell⟩ : TvTrade)]).Sorted tvLe) ∧
      ((toCandlesAndVolume ⟨"g", "r", "n"⟩
          (([(⟨10, 1, 2, some Side.buy⟩ : TvTrade)] ++
            [(⟨70, 2, 3, some Side.sell⟩ : TvTrade)]).map TvTrade.toRaw)
          60).1.getLast?,
        (toCandlesAndVolume ⟨"g", "r", "n"⟩
          (([(⟨10, 1, 2, some Side.buy⟩ : TvTrade)] ++
            [(⟨70, 2, 3, some Side.sell⟩ : TvTrade)]).map TvTrade.toRaw)
          60).2.getLast?) =
        applySeq ⟨"g", "r", "n"⟩ 60
          ((toCandlesAndVolume ⟨"g", "r", "n"⟩
              ([(⟨10, 1, 2, some Side.buy⟩ : TvTrade)].map TvTrade.toRaw)
              60).1.getLast?,
            (toCandlesAndVolume ⟨"g", "r", "n"⟩
              ([(⟨10, 1, 2, some Side.buy⟩ : TvTrade)].map TvTrade.toRaw)
              60).2.getLast?)
          [(⟨70, 2, 3, some Side.sell⟩ : TvTrade)] :=
  ⟨by decide, by decide,
    c1_applyTrade_refines_build ⟨"g", "r", "n"⟩ 60 (by decide)
      [(⟨10, 1, 2, some Side.buy⟩ : TvTrade)]
      [(⟨70, 2, 3, some Side.sell⟩ : TvTrade)] (by decide)⟩

/-! ## Claim C8: chunk bounds for the range [0, 1999] -/

/-- C8: over the block range `[0, 1999]` with chunk size 500, the chunked
fetch issues exactly the four sub-range requests `[0,499]`, `[500,999]`,
`[1000,1499]`, `[1500,1999]` and concatenates their results in range order. -/
theorem c8_chunked_fetch_bounds {Log : Type}
    (g : ℤ → ℤ → ℕ → Except String (List Log)) (L : ℤ → ℤ → List Log)
    (h : ∀ s e a, g s e a = .ok (L s e)) :
    getLogsChunkedT g 0 1999 =
      ([(0, 499), (500, 999), (1000, 1499), (1500, 1999)],
       .ok (L 0 499 ++ L 500 999 ++ L 1000 1499 ++ L 1500 1999)) := by
  unfold getLogsChunkedT
  rw [chunkStarts_0_1999]
  norm_num [subRangeEnd, LOG_CHUNK_SIZE, attemptLoop, h, min_def]

/-- Witness for C8 at a concrete oracle returning its own sub-range. -/
theorem c8_witness :
    getLogsChunkedT
      (fun s e _ => (.ok [(s, e)] : Except String (List (ℤ × ℤ)))) 0 1999 =
      ([(0, 499), (500, 999), (1000, 1499), (1500, 1999)],
       .ok [(0, 499), (500, 999), (1000, 1499), (1500, 1999)]) := by
  have := c8_chunked_fetch_bounds (fun s e _ => .ok [(s, e)])
    (fun s e => [(s, e)]) (fun _ _ _ => rfl)
  simpa using this

/-! ## Claim C9: deploy-block resolution on the boundary-at-1000 oracle -/

/-- C9: with a code-existence oracle that is false below block 1000 and true
at or above it, and any latest block `≥ 1000`, deploy-block resolution
returns a value in `[995, 1000]`. -/
theorem c9_deploy_block_resolution_bounds (getCode : ℤ → Bool) (latest : ℤ)
    (hc : ∀ b, getCode b = decide (1000 ≤ b)) (hl : 1000 ≤ latest) :
    995 ≤ findContractDeployBlock getCode latest ∧
      findContractDeployBlock getCode latest ≤ 1000 := by
  unfold findContractDeployBlock
  have hcl : getCode latest = true := by rw [hc]; exact decide_eq_true hl
  rw [hcl]
  simp only [Bool.not_true, Bool.false_eq_true, if_false]
  rw [deployLoop_boundary getCode hc 0 latest latest (by omega) (by omega)
    (Or.inr hl)]
  norm_num

/-- Witness for C9 at `latest = 1000`. -/
theorem c9_witness :
    995 ≤ findContractDeployBlock (fun b => decide (1000 ≤ b)) 1000 ∧
      findContractDeployBlock (fun b => decide (1000 ≤ b)) 1000 ≤ 1000 :=
  c9_deploy_block_resolution_bounds (fun b => decide (1000 ≤ b)) 1000
    (fun _ => rfl) (by omega)

/-! ## Claim C10: termination and non-negativity of deploy-block search -/

/-- C10: the binary-search interval strictly shrinks on every iteration (both
branches reduce the measure `(hi + 1 - lo).toNat`), and deploy-block
resolution is a total function returning a non-negative block number for
every oracle and latest block. -/
theorem c10_deploy_search_total_nonneg :
    (∀ (getCode : ℤ → Bool) (latest : ℤ),
        0 ≤ findContractDeployBlock getCode latest) ∧
      ∀ lo hi : ℤ, lo ≤ hi →
        ((deployMid lo hi - 1) + 1 - lo).toNat < (hi + 1 - lo).toNat ∧
          (hi + 1 - (deployMid lo hi + 1)).toNat < (hi + 1 - lo).toNat := by
  constructor
  · intro getCode latest
    unfold findContractDeployBlock
    cases h : getCode latest with
    | false => simp [h]
    | true => simpa [h] using deployLoop_nonneg getCode 0 latest latest
  · intro lo hi h
    unfold deployMid
    omega

/-- Witness for C10 at a concrete oracle and interval. -/
theorem c10_witness :
    0 ≤ findContractDeployBlock (fun _ => false) 50 ∧
      ((deployMid 0 5 - 1) + 1 - 0).toNat < ((5 : ℤ) + 1 - 0).toNat ∧
        ((5 : ℤ) + 1 - (deployMid 0 5 + 1)).toNat < ((5 : ℤ) + 1 - 0).toNat :=
  ⟨c10_deploy_search_total_nonneg.1 (fun _ => false) 50,
   c10_deploy_search_total_nonneg.2 0 5 (by omega)⟩

end LaunchIt
